import Mathlib

/-!
# Verification of the interactive graph-view engine

Shallow embedding of the force-directed graph view
(`src/ui/graph_view.rs`) of the Diptych file browser.

Modelling conventions:
* `f64` values are modelled by an arbitrary linear ordered field `α`
  (instantiated at `ℚ` for executable checks and at `ℝ` for the claims
  that need exact square-root semantics).
* The square root, `cos`, `sin`, `PI` and the random jitter drawn by
  `rand::thread_rng` are oracle parameters: the code treats them as
  black boxes and no claim depends on their values.
* `PathBuf` values and labels are modelled as `String`s; the directory
  listing returned by `filesystem::list_directory` is an oracle input of
  each expand operation (it is produced by the file system).
-/

namespace Diptych

/-- `NodeColor` from graph_view.rs. -/
structure NodeColor (α : Type) where
  r : α
  g : α
  b : α
  deriving Repr, DecidableEq

/-- `GraphNode` from graph_view.rs. -/
structure GraphNode (α : Type) where
  id : Nat
  label : String
  path : String
  is_dir : Bool
  is_expanded : Bool
  parent_id : Option Nat
  x : α
  y : α
  vx : α
  vy : α
  radius : α
  color : NodeColor α
  deriving Repr, DecidableEq

/-- `GraphEdge` from graph_view.rs. -/
structure GraphEdge where
  from_id : Nat
  to_id : Nat
  deriving Repr, DecidableEq

/-- `GraphState` from graph_view.rs. -/
structure GraphState (α : Type) where
  nodes : List (GraphNode α)
  edges : List GraphEdge
  next_id : Nat
  cam_x : α
  cam_y : α
  zoom : α
  dragged_node : Option Nat
  drag_offset_x : α
  drag_offset_y : α
  is_panning : Bool
  pan_start_x : α
  pan_start_y : α
  cam_start_x : α
  cam_start_y : α
  hovered_node : Option Nat
  physics_enabled : Bool
  deriving Repr, DecidableEq

/-- The fields of `filesystem::Entry` that the graph view reads
(`size` and `modified` are never consulted by graph_view.rs). -/
structure FsEntry where
  name : String
  path : String
  is_dir : Bool
  extension : String
  deriving Repr, DecidableEq

variable {α : Type} [LinearOrderedField α]

/-- `dir_color()` from graph_view.rs (#89B4FA). -/
def dir_color : NodeColor α :=
  { r := 54 / 100, g := 71 / 100, b := 98 / 100 }

/-- `file_color_for_ext` from graph_view.rs. -/
def file_color_for_ext (ext : String) : NodeColor α :=
  if ext = "rs" then { r := 87 / 100, g := 52 / 100, b := 26 / 100 }
  else if ext = "py" then { r := 36 / 100, g := 65 / 100, b := 85 / 100 }
  else if ext = "js" ∨ ext = "ts" then
    { r := 95 / 100, g := 85 / 100, b := 30 / 100 }
  else if ext = "c" ∨ ext = "cpp" ∨ ext = "h" then
    { r := 40 / 100, g := 60 / 100, b := 80 / 100 }
  else if ext = "png" ∨ ext = "jpg" ∨ ext = "jpeg" ∨ ext = "gif" ∨
      ext = "svg" ∨ ext = "webp" then
    { r := 65 / 100, g := 85 / 100, b := 55 / 100 }
  else if ext = "mp3" ∨ ext = "flac" ∨ ext = "ogg" ∨ ext = "wav" then
    { r := 80 / 100, g := 55 / 100, b := 80 / 100 }
  else if ext = "mp4" ∨ ext = "mkv" ∨ ext = "avi" ∨ ext = "mov" ∨
      ext = "webm" then
    { r := 90 / 100, g := 45 / 100, b := 45 / 100 }
  else if ext = "md" ∨ ext = "txt" ∨ ext = "log" then
    { r := 70 / 100, g := 70 / 100, b := 75 / 100 }
  else if ext = "json" ∨ ext = "toml" ∨ ext = "yaml" ∨ ext = "yml" ∨
      ext = "xml" then
    { r := 55 / 100, g := 78 / 100, b := 65 / 100 }
  else { r := 60 / 100, g := 60 / 100, b := 65 / 100 }

namespace GraphState

/-- `GraphState::new()` from graph_view.rs. -/
def new : GraphState α :=
  { nodes := [], edges := [], next_id := 0
    cam_x := 0, cam_y := 0, zoom := 1
    dragged_node := none, drag_offset_x := 0, drag_offset_y := 0
    is_panning := false, pan_start_x := 0, pan_start_y := 0
    cam_start_x := 0, cam_start_y := 0
    hovered_node := none, physics_enabled := true }

/-- `GraphState::add_root` from graph_view.rs.  The label extraction
(`path.file_name()`, an OS-string operation) is supplied by the caller;
the returned id (`next_id` before the call) is not modelled since no
claim consumes it. -/
def add_root (s : GraphState α) (path label : String) : GraphState α :=
  { s with
    next_id := s.next_id + 1
    nodes := s.nodes ++
      [{ id := s.next_id, label := label, path := path, is_dir := true
         is_expanded := false, parent_id := none
         x := 0, y := 0, vx := 0, vy := 0, radius := 28
         color := dir_color }] }

/-- `if let Some(n) = self.nodes.iter_mut().find(|n| n.id == node_id)`
followed by an assignment to `n.is_expanded`: set the `is_expanded` flag
of the first node with the given id, leave everything else alone. -/
def setExpandedFirst (nid : Nat) (b : Bool) :
    List (GraphNode α) → List (GraphNode α)
  | [] => []
  | n :: rest =>
    if n.id = nid then { n with is_expanded := b } :: rest
    else n :: setExpandedFirst nid b rest

/-- Child node pushed by one iteration of the loop in
`GraphState::expand_node` (graph_view.rs lines 150-184).  `piV`, `cosF`,
`sinF` stand for `std::f64::consts::PI` / `f64::cos` / `f64::sin`, and
`jit i` is the value of the i-th draw of `rng.gen_range(-20.0..20.0)`. -/
def mkChild (nid : Nat) (px py piV : α) (cosF sinF : α → α) (jit : Nat → α)
    (count startId : Nat) (i : Nat) (e : FsEntry) : GraphNode α :=
  let angle : α := if 0 < count then ((i : α) / (count : α)) * 2 * piV else 0
  let dist : α := 120 + jit i
  { id := startId + i, label := e.name, path := e.path, is_dir := e.is_dir
    is_expanded := false, parent_id := some nid
    x := px + cosF angle * dist, y := py + sinF angle * dist
    vx := 0, vy := 0
    radius := if e.is_dir then 22 else 14
    color := if e.is_dir then dir_color else file_color_for_ext e.extension }

/-- `GraphState::expand_node` from graph_view.rs.  `entries` is the
value returned by the `filesystem::list_directory` collaborator, and the
transcendental/random inputs are oracles (see `mkChild`). -/
def expand_node (s : GraphState α) (nid : Nat) (entries : List FsEntry)
    (piV : α) (cosF sinF : α → α) (jit : Nat → α) : GraphState α :=
  match s.nodes.find? (fun n => n.id == nid) with
  | none => s
  | some node =>
    if !node.is_dir || node.is_expanded then s
    else
      let px := node.x
      let py := node.y
      let count := entries.length
      { s with
        nodes := setExpandedFirst nid true s.nodes ++
          entries.enum.map (fun p =>
            mkChild nid px py piV cosF sinF jit count s.next_id p.1 p.2)
        edges := s.edges ++
          entries.enum.map (fun p => GraphEdge.mk nid (s.next_id + p.1))
        next_id := s.next_id + count }

/-- One iteration body plus worklist recursion of the descendant
collection loop in `GraphState::collapse_node` (graph_view.rs lines
208-220): pop an id, append every live node whose `parent_id` is that id
(and whose id is not the collapse root) to `to_remove`, and push the
directory ones onto the stack.  The Rust `while let Some(nid) =
stack.pop()` loop has no structural termination measure (it can diverge
on cyclic `parent_id` chains that no reachable state exhibits), so the
recursion is fuelled; `collapse_node` passes fuel `nodes.length + 1`,
which is proved sufficient for all well-formed states below. -/
def collectLoop (nodes : List (GraphNode α)) (rootId : Nat) :
    Nat → List Nat → List Nat → List Nat
  | 0, acc, _ => acc
  | _ + 1, acc, [] => acc
  | fuel + 1, acc, nid :: rest =>
    let found := nodes.filter (fun n => n.parent_id == some nid && !(n.id == rootId))
    collectLoop nodes rootId fuel (acc ++ found.map (·.id))
      (((found.filter (·.is_dir)).map (·.id)).reverse ++ rest)

/-- The `to_remove` list computed by `GraphState::collapse_node`. -/
def collapseRemove (nodes : List (GraphNode α)) (rootId : Nat) : List Nat :=
  collectLoop nodes rootId (nodes.length + 1) [] [rootId]

/-- `GraphState::collapse_node` from graph_view.rs. -/
def collapse_node (s : GraphState α) (nid : Nat) : GraphState α :=
  let isExp :=
    ((s.nodes.find? (fun n => n.id == nid)).map (·.is_expanded)).getD false
  if !isExp then s
  else
    let ns := setExpandedFirst nid false s.nodes
    let rem := collapseRemove ns nid
    { s with
      nodes := ns.filter (fun n => !(rem.contains n.id))
      edges := s.edges.filter
        (fun e => !(rem.contains e.from_id) && !(rem.contains e.to_id)) }

/-- `GraphState::node_at` from graph_view.rs: first hit in reverse
insertion order. -/
def node_at (s : GraphState α) (wx wy : α) : Option Nat :=
  (s.nodes.reverse.find? (fun n =>
    decide ((wx - n.x) * (wx - n.x) + (wy - n.y) * (wy - n.y) ≤
      n.radius * n.radius))).map (·.id)

/-- `GraphState::screen_to_world` from graph_view.rs. -/
def screen_to_world (s : GraphState α) (sx sy width height : α) : α × α :=
  ((sx - width / 2) / s.zoom + s.cam_x, (sy - height / 2) / s.zoom + s.cam_y)

end GraphState

/-- x coordinate of `self.nodes[i]` (indices produced by the physics
loops are always in bounds; the default is never reached there). -/
def nodeX (nodes : List (GraphNode α)) (i : Nat) : α :=
  ((nodes.get? i).map (·.x)).getD 0

/-- y coordinate of `self.nodes[i]`. -/
def nodeY (nodes : List (GraphNode α)) (i : Nat) : α :=
  ((nodes.get? i).map (·.y)).getD 0

/-- `v[i]` for a force accumulator vector. -/
def fGet (f : List α) (i : Nat) : α := (f.get? i).getD 0

/-- `v[i] += d` on a force accumulator vector. -/
def fAdd (f : List α) (i : Nat) (d : α) : List α := f.set i (fGet f i + d)

/-- Inner repulsion loop `for j in (i+1)..n` of `physics_step`
(graph_view.rs lines 250-261), acting on the accumulator pair. -/
def repelInner (sqrtF : α → α) (nodes : List (GraphNode α)) (i : Nat) :
    List Nat → List α × List α → List α × List α
  | [], f => f
  | j :: js, (fx, fy) =>
    let dx := nodeX nodes i - nodeX nodes j
    let dy := nodeY nodes i - nodeY nodes j
    let dist := max (sqrtF (dx * dx + dy * dy)) 1
    let force := 8000 / (dist * dist)
    let fdx := dx / dist * force
    let fdy := dy / dist * force
    repelInner sqrtF nodes i js
      (fAdd (fAdd fx i fdx) j (-fdx), fAdd (fAdd fy i fdy) j (-fdy))

/-- Outer repulsion loop `for i in 0..n` of `physics_step`. -/
def repelOuter (sqrtF : α → α) (nodes : List (GraphNode α)) (n : Nat) :
    List Nat → List α × List α → List α × List α
  | [], f => f
  | i :: is_, f =>
    repelOuter sqrtF nodes n is_
      (repelInner sqrtF nodes i (List.range' (i + 1) (n - (i + 1))) f)

/-- `self.nodes.iter().position(pred)`: index of the first node
satisfying the predicate. -/
def positionIdx (p : GraphNode α → Bool) : List (GraphNode α) → Option Nat
  | [] => none
  | n :: rest => if p n then some 0 else (positionIdx p rest).map (· + 1)

/-- Spring loop `for edge in &self.edges` of `physics_step`
(graph_view.rs lines 265-281). -/
def springLoop (sqrtF : α → α) (nodes : List (GraphNode α)) :
    List GraphEdge → List α × List α → List α × List α
  | [], f => f
  | e :: es, (fx, fy) =>
    match positionIdx (fun n => n.id == e.from_id) nodes,
        positionIdx (fun n => n.id == e.to_id) nodes with
    | some fi, some ti =>
      let dx := nodeX nodes ti - nodeX nodes fi
      let dy := nodeY nodes ti - nodeY nodes fi
      let dist := max (sqrtF (dx * dx + dy * dy)) 1
      let displacement := dist - 120
      let force := (2 / 100) * displacement
      let fdx := dx / dist * force
      let fdy := dy / dist * force
      springLoop sqrtF nodes es
        (fAdd (fAdd fx fi fdx) ti (-fdx), fAdd (fAdd fy fi fdy) ti (-fdy))
    | _, _ => springLoop sqrtF nodes es (fx, fy)

/-- Centering-gravity loop of `physics_step` (graph_view.rs lines
284-287): `fx[i] -= nodes[i].x * 0.001`. -/
def gravityLoop (nodes : List (GraphNode α)) :
    List Nat → List α × List α → List α × List α
  | [], f => f
  | i :: is_, (fx, fy) =>
    gravityLoop nodes is_
      (fAdd fx i (-(nodeX nodes i * (1 / 1000))),
       fAdd fy i (-(nodeY nodes i * (1 / 1000))))

/-- The accumulated force vectors of one `physics_step` call:
repulsion between all pairs, then spring attraction along edges, then
centering gravity, exactly in the order the source applies them. -/
def accumForces (sqrtF : α → α) (nodes : List (GraphNode α))
    (edges : List GraphEdge) : List α × List α :=
  let n := nodes.length
  let f0 : List α × List α := (List.replicate n 0, List.replicate n 0)
  gravityLoop nodes (List.range n)
    (springLoop sqrtF nodes edges
      (repelOuter sqrtF nodes n (List.range n) f0))

/-- The force-application body of `physics_step` (graph_view.rs lines
290-308) for the node at index `i`: a dragged node has its velocity
zeroed and is skipped, every other node integrates, clamps its speed to
`max_speed = 8` and moves by its new velocity. -/
def integrateNode (sqrtF : α → α) (dragged : Option Nat)
    (fx fy : List α) (i : Nat) (nd : GraphNode α) : GraphNode α :=
  if some nd.id == dragged then { nd with vx := 0, vy := 0 }
  else
    let vx1 := (nd.vx + fGet fx i) * (85 / 100)
    let vy1 := (nd.vy + fGet fy i) * (85 / 100)
    let speed := sqrtF (vx1 ^ 2 + vy1 ^ 2)
    let vx2 := if 8 < speed then vx1 / speed * 8 else vx1
    let vy2 := if 8 < speed then vy1 / speed * 8 else vy1
    { nd with vx := vx2, vy := vy2, x := nd.x + vx2, y := nd.y + vy2 }

/-- Index-passing map used to render the final `for i in 0..n` node
update loop of `physics_step`. -/
def mapIdxFrom (f : Nat → GraphNode α → GraphNode α) :
    Nat → List (GraphNode α) → List (GraphNode α)
  | _, [] => []
  | i, nd :: rest => f i nd :: mapIdxFrom f (i + 1) rest

namespace GraphState

/-- `GraphState::physics_step` from graph_view.rs.  `sqrtF` stands for
`f64::sqrt`. -/
def physics_step (sqrtF : α → α) (s : GraphState α) : GraphState α :=
  if !s.physics_enabled then s
  else if s.nodes.length = 0 then s
  else
    let fs := accumForces sqrtF s.nodes s.edges
    { s with
      nodes := mapIdxFrom (integrateNode sqrtF s.dragged_node fs.1 fs.2) 0 s.nodes }

end GraphState

/-- Scroll handler of `build_graph_view` (graph_view.rs lines 382-387):
`factor = if dy < 0 { 1.1 } else { 1.0/1.1 }`, then
`zoom = (zoom * factor).clamp(0.1, 5.0)` (`f64::clamp`). -/
def applyScroll (s : GraphState α) (dy : α) : GraphState α :=
  let factor : α := if dy < 0 then 11 / 10 else 1 / (11 / 10)
  let z := s.zoom * factor
  { s with zoom := if z < 1 / 10 then 1 / 10 else if 5 < z then 5 else z }

/-- Mutate the first node with the given id
(`self.nodes.iter_mut().find(|n| n.id == nid)`). -/
def updateFirst (nid : Nat) (f : GraphNode α → GraphNode α) :
    List (GraphNode α) → List (GraphNode α)
  | [] => []
  | n :: rest =>
    if n.id = nid then f n :: rest else n :: updateFirst nid f rest

/-- `drag_begin` handler of `build_graph_view` (graph_view.rs lines
444-464): hit a node → record it as dragged with its grab offset;
otherwise enter pan mode. -/
def dragBegin (s : GraphState α) (x y w h : α) : GraphState α :=
  let p := s.screen_to_world x y w h
  match s.node_at p.1 p.2 with
  | some nid =>
    match s.nodes.find? (fun n => n.id == nid) with
    | some node =>
      { s with dragged_node := some nid
               drag_offset_x := p.1 - node.x, drag_offset_y := p.2 - node.y }
    | none => s
  | none =>
    { s with is_panning := true, pan_start_x := x, pan_start_y := y
             cam_start_x := s.cam_x, cam_start_y := s.cam_y }

/-- `drag_update` handler of `build_graph_view` (graph_view.rs lines
468-488).  `startX`/`startY` model `gesture.start_point()` (always
available while a drag is in progress). -/
def dragUpdate (s : GraphState α) (startX startY dx dy w h : α) :
    GraphState α :=
  match s.dragged_node with
  | some nid =>
    let p := s.screen_to_world (startX + dx) (startY + dy) w h
    { s with nodes := updateFirst nid (fun n =>
        { n with x := p.1 - s.drag_offset_x, y := p.2 - s.drag_offset_y
                 vx := 0, vy := 0 }) s.nodes }
  | none =>
    if s.is_panning then
      { s with cam_x := s.cam_start_x - dx / s.zoom
               cam_y := s.cam_start_y - dy / s.zoom }
    else s

/-- `drag_end` handler of `build_graph_view` (graph_view.rs lines
491-495). -/
def dragEnd (s : GraphState α) : GraphState α :=
  { s with dragged_node := none, is_panning := false }

/-- A graph-store mutation: one `expand_node` call (with the directory
listing and the transcendental/random oracles it consumed) or one
`collapse_node` call. -/
inductive GOp (α : Type) where
  | expand (nid : Nat) (entries : List FsEntry) (piV : α)
      (cosF sinF : α → α) (jit : Nat → α)
  | collapse (nid : Nat)

/-- Apply one graph-store mutation. -/
def applyOp (s : GraphState α) : GOp α → GraphState α
  | .expand nid entries piV cosF sinF jit =>
    s.expand_node nid entries piV cosF sinF jit
  | .collapse nid => s.collapse_node nid

/-- One parent link, on ids: `childRel nodes a b` holds when some live
node has id `a` and `parent_id = some b`. -/
def childRel (nodes : List (GraphNode α)) (a b : Nat) : Prop :=
  ∃ m ∈ nodes, m.id = a ∧ m.parent_id = some b

/-- The specification's transitive descendant set: id `v` is reachable
from `rootId` via `parent_id` links (at least one step). -/
def Descend (nodes : List (GraphNode α)) (rootId v : Nat) : Prop :=
  Relation.TransGen (childRel nodes) v rootId

/-- Ids freshly allocated by one operation (empty when the operation's
precondition fails and it is a no-op). -/
def opCreated (s : GraphState α) : GOp α → List Nat
  | .expand nid entries _ _ _ _ =>
    match s.nodes.find? (fun n => n.id == nid) with
    | none => []
    | some node =>
      if !node.is_dir || node.is_expanded then []
      else List.range' s.next_id entries.length
  | .collapse _ => []

/-- All ids allocated over a sequence of operations, in order. -/
def runCreated : GraphState α → List (GOp α) → List Nat
  | _, [] => []
  | s, op :: ops => opCreated s op ++ runCreated (applyOp s op) ops

/-- Session well-formedness: invariants satisfied by every state the
engine can reach (established below). -/
structure WF (s : GraphState α) : Prop where
  idBound : ∀ n ∈ s.nodes, n.id < s.next_id
  idNodup : (s.nodes.map (·.id)).Nodup
  edgeLive : ∀ e ∈ s.edges,
    (∃ n ∈ s.nodes, n.id = e.from_id) ∧ (∃ n ∈ s.nodes, n.id = e.to_id)
  parentLt : ∀ n ∈ s.nodes, ∀ p, n.parent_id = some p → p < n.id
  parentDir : ∀ n ∈ s.nodes, ∀ p, n.parent_id = some p →
    ∀ m ∈ s.nodes, m.id = p → m.is_dir = true
  noChildUnexpanded : ∀ n ∈ s.nodes, n.is_expanded = false →
    ∀ c ∈ s.nodes, c.parent_id ≠ some n.id

/-- Spec-side reference step for C8 (spec §8, "`advance()` on zero or
one node ... changes position only via the centering term"): identical
gating, drag handling and integration as `physics_step`, but the only
accumulated force is the centering-gravity term `-position * 0.001`. -/
def centering_only_step (sqrtF : α → α) (s : GraphState α) : GraphState α :=
  if !s.physics_enabled then s
  else if s.nodes.length = 0 then s
  else
    let fs := gravityLoop s.nodes (List.range s.nodes.length)
      (List.replicate s.nodes.length 0, List.replicate s.nodes.length 0)
    { s with
      nodes := mapIdxFrom (integrateNode sqrtF s.dragged_node fs.1 fs.2) 0 s.nodes }

section Samples

/-- A sample directory entry for concrete checks. -/
def entQ (n : String) (d : Bool) : FsEntry := ⟨n, n, d, ""⟩

/-- Zero oracle for the transcendental/random inputs. -/
def oracleZ : ℚ → ℚ := fun _ => 0

/-- Sample: fresh engine with one root. -/
def sample0 : GraphState ℚ := GraphState.new.add_root "/r" "r"

/-- Sample: root 0 expanded into directory 1 and file 2. -/
def sample1 : GraphState ℚ :=
  sample0.expand_node 0 [entQ "d" true, entQ "f.txt" false] 0
    (fun _ => 0) (fun _ => 0) (fun _ => 0)

/-- Sample: directory 1 further expanded into file 3. -/
def sample2 : GraphState ℚ :=
  sample1.expand_node 1 [entQ "a.rs" false] 0
    (fun _ => 0) (fun _ => 0) (fun _ => 0)

/-- The literal root node produced by `add_root` on a fresh engine. -/
def rootNodeQ : GraphNode ℚ :=
  { id := 0, label := "r", path := "/r", is_dir := true, is_expanded := false
    parent_id := none, x := 0, y := 0, vx := 0, vy := 0, radius := 28
    color := dir_color }

/-- A single node at the origin with radius 10, used for hit-testing
and drag checks. -/
def hitNodeQ : GraphNode ℚ :=
  { id := 0, label := "n", path := "/n", is_dir := false, is_expanded := false
    parent_id := none, x := 0, y := 0, vx := 1, vy := 2, radius := 10
    color := dir_color }

/-- Engine state holding just `hitNodeQ`. -/
def sampleHit : GraphState ℚ := { GraphState.new with nodes := [hitNodeQ] }

/-- Real-valued sample: fresh engine with one root. -/
noncomputable def sample0R : GraphState ℝ := GraphState.new.add_root "/r" "r"

/-- The root node of `sample0R`. -/
noncomputable def rootNodeR : GraphNode ℝ :=
  { id := 0, label := "r", path := "/r", is_dir := true, is_expanded := false
    parent_id := none, x := 0, y := 0, vx := 0, vy := 0, radius := 28
    color := dir_color }

end Samples

open GraphState (setExpandedFirst mkChild collectLoop collapseRemove)

section Helpers

lemma contains_iff_mem (l : List Nat) (a : Nat) :
    l.contains a = true ↔ a ∈ l := by
  simp [List.contains_iff_exists_mem_beq]

/-- `setExpandedFirst` only touches the `is_expanded` field: the
projection to (id, parent, is_dir) is unchanged. -/
lemma setExpandedFirst_proj (nid : Nat) (b : Bool) :
    ∀ l : List (GraphNode α),
      (setExpandedFirst nid b l).map (fun n => (n.id, n.parent_id, n.is_dir)) =
        l.map (fun n => (n.id, n.parent_id, n.is_dir))
  | [] => rfl
  | n :: rest => by
    by_cases h : n.id = nid <;>
      simp [setExpandedFirst, h, setExpandedFirst_proj nid b rest]

lemma setExpandedFirst_ids (nid : Nat) (b : Bool) (l : List (GraphNode α)) :
    (setExpandedFirst nid b l).map (·.id) = l.map (·.id) := by
  have h := congrArg (List.map (fun p => p.1)) (setExpandedFirst_proj nid b l)
  simpa [List.map_map, Function.comp] using h

/-- Every node of `setExpandedFirst nid b l` has the id, parent and
directory flag of a node of `l`. -/
lemma mem_setExpandedFirst_shape {nid : Nat} {b : Bool} :
    ∀ (l : List (GraphNode α)) (n : GraphNode α), n ∈ setExpandedFirst nid b l →
      ∃ m ∈ l, m.id = n.id ∧ m.parent_id = n.parent_id ∧ m.is_dir = n.is_dir
  | [], n => by simp [setExpandedFirst]
  | hd :: tl, n => by
    intro hn
    by_cases hh : hd.id = nid
    · simp only [setExpandedFirst, if_pos hh] at hn
      rcases List.mem_cons.mp hn with rfl | h2
      · exact ⟨hd, List.mem_cons_self _ _, rfl, rfl, rfl⟩
      · exact ⟨n, List.mem_cons_of_mem _ h2, rfl, rfl, rfl⟩
    · simp only [setExpandedFirst, if_neg hh] at hn
      rcases List.mem_cons.mp hn with rfl | h2
      · exact ⟨n, List.mem_cons_self _ _, rfl, rfl, rfl⟩
      · rcases mem_setExpandedFirst_shape tl _ h2 with ⟨m, hm, e⟩
        exact ⟨m, List.mem_cons_of_mem _ hm, e⟩

/-- Converse direction of `mem_setExpandedFirst_shape`. -/
lemma mem_setExpandedFirst_shape' (nid : Nat) (b : Bool) :
    ∀ (l : List (GraphNode α)) (m : GraphNode α), m ∈ l →
      ∃ m' ∈ setExpandedFirst nid b l,
        m'.id = m.id ∧ m'.parent_id = m.parent_id ∧ m'.is_dir = m.is_dir
  | [], m => by simp
  | hd :: tl, m => by
    intro hm
    by_cases hh : hd.id = nid
    · simp only [setExpandedFirst, if_pos hh]
      rcases List.mem_cons.mp hm with rfl | h2
      · exact ⟨{ m with is_expanded := b }, List.mem_cons_self _ _, rfl, rfl, rfl⟩
      · exact ⟨m, List.mem_cons_of_mem _ h2, rfl, rfl, rfl⟩
    · simp only [setExpandedFirst, if_neg hh]
      rcases List.mem_cons.mp hm with rfl | h2
      · exact ⟨m, List.mem_cons_self _ _, rfl, rfl, rfl⟩
      · rcases mem_setExpandedFirst_shape' nid b tl _ h2 with ⟨m', hm', e⟩
        exact ⟨m', List.mem_cons_of_mem _ hm', e⟩

lemma mem_setExpandedFirst_cases {nid : Nat} {b : Bool} :
    ∀ (l : List (GraphNode α)) (n : GraphNode α), n ∈ setExpandedFirst nid b l →
      n ∈ l ∨ ∃ m ∈ l, m.id = nid ∧ n = { m with is_expanded := b }
  | [], n => by simp [setExpandedFirst]
  | hd :: tl, n => by
    intro hn
    by_cases hh : hd.id = nid
    · simp only [setExpandedFirst, if_pos hh] at hn
      rcases List.mem_cons.mp hn with rfl | h2
      · exact Or.inr ⟨hd, List.mem_cons_self _ _, hh, rfl⟩
      · exact Or.inl (List.mem_cons_of_mem _ h2)
    · simp only [setExpandedFirst, if_neg hh] at hn
      rcases List.mem_cons.mp hn with rfl | h2
      · exact Or.inl (List.mem_cons_self _ _)
      · rcases mem_setExpandedFirst_cases tl _ h2 with h' | ⟨m, hm, e1, e2⟩
        · exact Or.inl (List.mem_cons_of_mem _ h')
        · exact Or.inr ⟨m, List.mem_cons_of_mem _ hm, e1, e2⟩

/-- In a nodup list, a node left unexpanded by
`setExpandedFirst nid true` cannot have id `nid`. -/
lemma setExpandedFirst_unexpanded_ne {nid : Nat} :
    ∀ (l : List (GraphNode α)), (l.map (·.id)).Nodup →
      ∀ n ∈ setExpandedFirst nid true l, n.is_expanded = false → n.id ≠ nid
  | [], _ => by simp [setExpandedFirst]
  | hd :: tl, hnd => by
    intro n hn hflag
    simp only [List.map_cons, List.nodup_cons] at hnd
    by_cases hh : hd.id = nid
    · simp only [setExpandedFirst, if_pos hh] at hn
      rcases List.mem_cons.mp hn with rfl | h2
      · simp at hflag
      · intro hid
        apply hnd.1
        rw [hh, ← hid]
        exact List.mem_map_of_mem _ h2
    · simp only [setExpandedFirst, if_neg hh] at hn
      rcases List.mem_cons.mp hn with rfl | h2
      · exact hh
      · exact setExpandedFirst_unexpanded_ne tl hnd.2 n h2 hflag

/-- `childRel` ignores the `is_expanded` flag. -/
lemma childRel_setExpandedFirst (nid : Nat) (b : Bool)
    (l : List (GraphNode α)) (a c : Nat) :
    childRel (setExpandedFirst nid b l) a c ↔ childRel l a c := by
  constructor
  · rintro ⟨m, hm, h1, h2⟩
    rcases mem_setExpandedFirst_shape l _ hm with ⟨m', hm', e1, e2, _⟩
    exact ⟨m', hm', by rw [e1, h1], by rw [e2, h2]⟩
  · rintro ⟨m, hm, h1, h2⟩
    rcases mem_setExpandedFirst_shape' nid b l _ hm with ⟨m', hm', e1, e2, _⟩
    exact ⟨m', hm', by rw [e1, h1], by rw [e2, h2]⟩

lemma descend_setExpandedFirst (nid : Nat) (b : Bool)
    (l : List (GraphNode α)) (rootId v : Nat) :
    Descend (setExpandedFirst nid b l) rootId v ↔ Descend l rootId v := by
  unfold Descend
  constructor <;> intro h
  · exact Relation.TransGen.mono
      (fun a c hac => (childRel_setExpandedFirst nid b l a c).mp hac) h
  · exact Relation.TransGen.mono
      (fun a c hac => (childRel_setExpandedFirst nid b l a c).mpr hac) h

lemma childRel_lt {nodes : List (GraphNode α)}
    (hlt : ∀ n ∈ nodes, ∀ p, n.parent_id = some p → p < n.id)
    {a b : Nat} (h : childRel nodes a b) : b < a := by
  rcases h with ⟨m, hm, h1, h2⟩
  exact h1 ▸ hlt m hm b h2

lemma descend_lt {nodes : List (GraphNode α)}
    (hlt : ∀ n ∈ nodes, ∀ p, n.parent_id = some p → p < n.id)
    {rootId v : Nat} (h : Descend nodes rootId v) : rootId < v := by
  induction h with
  | single h => exact childRel_lt hlt h
  | tail _ h ih => exact lt_trans (childRel_lt hlt h) ih

lemma node_inj {nodes : List (GraphNode α)}
    (hnd : (nodes.map (·.id)).Nodup) {a b : GraphNode α}
    (ha : a ∈ nodes) (hb : b ∈ nodes) (h : a.id = b.id) : a = b :=
  List.inj_on_of_nodup_map hnd ha hb h

end Helpers

section CollapseCorrect

/-- Master invariant lemma for the collapse worklist loop: starting from
any loop state whose invariants hold, the loop computes exactly the ids
of the transitive descendants of `rootId`.  `popped` is the (ghost) set
of ids popped so far; the fuel bound counts the ids not yet popped. -/
lemma collectLoop_spec (nodes : List (GraphNode α)) (rootId : Nat)
    (hnd : (nodes.map (·.id)).Nodup)
    (hlt : ∀ n ∈ nodes, ∀ p, n.parent_id = some p → p < n.id)
    (hdir : ∀ n ∈ nodes, ∀ p, n.parent_id = some p →
      ∀ m ∈ nodes, m.id = p → m.is_dir = true) :
    ∀ (fuel : Nat) (acc stack : List Nat) (popped : Finset Nat),
      ((insert rootId (nodes.map (·.id)).toFinset) \ popped).card ≤ fuel →
      stack.Nodup →
      (∀ v ∈ stack, v ∉ popped) →
      (∀ v ∈ stack, v ∈ insert rootId (nodes.map (·.id)).toFinset) →
      (∀ v ∈ stack, v = rootId ∨
        ∃ m ∈ nodes, m.id = v ∧ ∃ p, m.parent_id = some p ∧ p ∈ popped) →
      (∀ v ∈ popped, v = rootId ∨
        ∃ m ∈ nodes, m.id = v ∧ ∃ p, m.parent_id = some p ∧ p ∈ popped) →
      (∀ v ∈ acc, ∃ n ∈ nodes, n.id = v ∧ Descend nodes rootId v) →
      (∀ v ∈ stack, v = rootId ∨
        ∃ n ∈ nodes, n.id = v ∧ n.is_dir = true ∧ Descend nodes rootId v) →
      (∀ v ∈ stack, v = rootId ∨ v ∈ acc) →
      (∀ n ∈ nodes, Descend nodes rootId n.id →
        n.id ∈ acc ∨ ∃ a ∈ stack, Relation.ReflTransGen (childRel nodes) n.id a) →
      ∀ v, v ∈ collectLoop nodes rootId fuel acc stack ↔
        ∃ n ∈ nodes, n.id = v ∧ Descend nodes rootId v := by
  intro fuel
  induction fuel with
  | zero =>
    intro acc stack popped hfuel hsnd hsp hsu hstP hpopQ haccS hstS hstA hcov v
    have hstack : stack = [] := by
      cases stack with
      | nil => rfl
      | cons a rest =>
        exfalso
        have ha : a ∈ (insert rootId (nodes.map (·.id)).toFinset) \ popped :=
          Finset.mem_sdiff.mpr
            ⟨hsu a (List.mem_cons_self _ _), hsp a (List.mem_cons_self _ _)⟩
        have := Finset.card_pos.mpr ⟨a, ha⟩
        omega
    subst hstack
    simp only [collectLoop]
    constructor
    · exact haccS v
    · rintro ⟨n, hn, rfl, hd⟩
      rcases hcov n hn hd with h | ⟨a, ha, _⟩
      · exact h
      · simp at ha
  | succ fuel ih =>
    intro acc stack popped hfuel hsnd hsp hsu hstP hpopQ haccS hstS hstA hcov v
    cases stack with
    | nil =>
      simp only [collectLoop]
      constructor
      · exact haccS v
      · rintro ⟨n, hn, rfl, hd⟩
        rcases hcov n hn hd with h | ⟨a, ha, _⟩
        · exact h
        · simp at ha
    | cons nid rest =>
      have hnid_univ : nid ∈ insert rootId (nodes.map (·.id)).toFinset :=
        hsu nid (List.mem_cons_self _ _)
      have hnid_np : nid ∉ popped := hsp nid (List.mem_cons_self _ _)
      have hrestnd : rest.Nodup := (List.nodup_cons.mp hsnd).2
      have hnid_nrest : nid ∉ rest := (List.nodup_cons.mp hsnd).1
      -- membership in the found list
      have hfound : ∀ {n : GraphNode α},
          n ∈ nodes.filter (fun n => n.parent_id == some nid && !(n.id == rootId)) ↔
            n ∈ nodes ∧ n.parent_id = some nid ∧ n.id ≠ rootId := by
        intro n
        simp [List.mem_filter]
      -- either nid is the collapse root or a strict descendant of it
      have hnid_ge : nid = rootId ∨ rootId < nid := by
        rcases hstS nid (List.mem_cons_self _ _) with h | ⟨n', _, _, _, hdn⟩
        · exact Or.inl h
        · exact Or.inr (descend_lt hlt hdn)
      -- every found node is a strict descendant
      have hmkDesc : ∀ {m : GraphNode α}, m ∈ nodes → m.parent_id = some nid →
          Descend nodes rootId m.id := by
        intro m hm hmp
        have hcr : childRel nodes m.id nid := ⟨m, hm, rfl, hmp⟩
        rcases hstS nid (List.mem_cons_self _ _) with h | ⟨n', _, _, _, hdn⟩
        · exact Relation.TransGen.single (h ▸ hcr)
        · exact Relation.TransGen.head hcr hdn
      -- unfold one loop iteration
      simp only [collectLoop]
      refine ih (acc ++ _) (_ ++ rest) (insert nid popped) ?_ ?_ ?_ ?_ ?_ ?_ ?_ ?_ ?_ ?_ v
      · -- fuel bound
        have h1 : (insert rootId (nodes.map (·.id)).toFinset) \ insert nid popped =
            ((insert rootId (nodes.map (·.id)).toFinset) \ popped).erase nid :=
          Finset.sdiff_insert _ _ _
        have h2 : nid ∈ (insert rootId (nodes.map (·.id)).toFinset) \ popped :=
          Finset.mem_sdiff.mpr ⟨hnid_univ, hnid_np⟩
        have h3 := Finset.card_erase_of_mem h2
        have h4 := Finset.card_pos.mpr ⟨nid, h2⟩
        rw [h1, h3]
        omega
      · -- stack nodup
        refine List.Nodup.append ?_ hrestnd ?_
        · rw [List.nodup_reverse]
          refine List.Nodup.sublist (List.Sublist.map _ ?_) hnd
          exact ((List.filter_sublist _).trans (List.filter_sublist _))
        · intro v hv hvrest
          simp only [List.mem_reverse, List.mem_map] at hv
          rcases hv with ⟨m, hmf, rfl⟩
          have hmf' := hfound.mp (List.mem_of_mem_filter hmf)
          rcases hstP m.id (List.mem_cons_of_mem _ hvrest) with h | ⟨m', hm', hid', p', hp', hpp'⟩
          · exact hmf'.2.2 h
          · have : m' = m := node_inj hnd hm' hmf'.1 hid'
            subst this
            rw [hmf'.2.1] at hp'
            exact hnid_np (by injection hp' with e; exact e ▸ hpp')
      · -- stack disjoint from popped
        intro v hv
        rcases List.mem_append.mp hv with hv | hv
        · simp only [List.mem_reverse, List.mem_map] at hv
          rcases hv with ⟨m, hmf, rfl⟩
          have hmf' := hfound.mp (List.mem_of_mem_filter hmf)
          intro hmem
          rcases Finset.mem_insert.mp hmem with h | h
          · have := hlt m hmf'.1 nid hmf'.2.1
            omega
          · rcases hpopQ m.id h with h' | ⟨m', hm', hid', p', hp', hpp'⟩
            · exact hmf'.2.2 h'
            · have : m' = m := node_inj hnd hm' hmf'.1 hid'
              subst this
              rw [hmf'.2.1] at hp'
              exact hnid_np (by injection hp' with e; exact e ▸ hpp')
        · intro hmem
          rcases Finset.mem_insert.mp hmem with h | h
          · exact hnid_nrest (h ▸ hv)
          · exact hsp v (List.mem_cons_of_mem _ hv) h
      · -- stack inside the universe
        intro v hv
        rcases List.mem_append.mp hv with hv | hv
        · simp only [List.mem_reverse, List.mem_map] at hv
          rcases hv with ⟨m, hmf, rfl⟩
          have hmf' := hfound.mp (List.mem_of_mem_filter hmf)
          exact Finset.mem_insert_of_mem
            (List.mem_toFinset.mpr (List.mem_map_of_mem _ hmf'.1))
        · exact hsu v (List.mem_cons_of_mem _ hv)
      · -- stack elements have a popped parent (or are the root)
        intro v hv
        rcases List.mem_append.mp hv with hv | hv
        · simp only [List.mem_reverse, List.mem_map] at hv
          rcases hv with ⟨m, hmf, rfl⟩
          have hmf' := hfound.mp (List.mem_of_mem_filter hmf)
          exact Or.inr ⟨m, hmf'.1, rfl, nid, hmf'.2.1, Finset.mem_insert_self _ _⟩
        · rcases hstP v (List.mem_cons_of_mem _ hv) with h | ⟨m, hm, hid, p, hp, hpp⟩
          · exact Or.inl h
          · exact Or.inr ⟨m, hm, hid, p, hp, Finset.mem_insert_of_mem hpp⟩
      · -- popped elements have a popped parent (or are the root)
        intro v hv
        rcases Finset.mem_insert.mp hv with rfl | hv
        · rcases hstP v (List.mem_cons_self _ _) with h | ⟨m, hm, hid, p, hp, hpp⟩
          · exact Or.inl h
          · exact Or.inr ⟨m, hm, hid, p, hp, Finset.mem_insert_of_mem hpp⟩
        · rcases hpopQ v hv with h | ⟨m, hm, hid, p, hp, hpp⟩
          · exact Or.inl h
          · exact Or.inr ⟨m, hm, hid, p, hp, Finset.mem_insert_of_mem hpp⟩
      · -- everything accumulated is a descendant
        intro v hv
        rcases List.mem_append.mp hv with hv | hv
        · exact haccS v hv
        · simp only [List.mem_map] at hv
          rcases hv with ⟨m, hmf, rfl⟩
          have hmf' := hfound.mp hmf
          exact ⟨m, hmf'.1, rfl, hmkDesc hmf'.1 hmf'.2.1⟩
      · -- stack elements are directory descendants (or the root)
        intro v hv
        rcases List.mem_append.mp hv with hv | hv
        · simp only [List.mem_reverse, List.mem_map] at hv
          rcases hv with ⟨m, hmf, rfl⟩
          have hmdir : m.is_dir = true := by
            have := List.mem_filter.mp hmf
            exact this.2
          have hmf' := hfound.mp (List.mem_of_mem_filter hmf)
          exact Or.inr ⟨m, hmf'.1, rfl, hmdir, hmkDesc hmf'.1 hmf'.2.1⟩
        · exact hstS v (List.mem_cons_of_mem _ hv)
      · -- stack elements are accumulated (or the root)
        intro v hv
        rcases List.mem_append.mp hv with hv | hv
        · simp only [List.mem_reverse, List.mem_map] at hv
          rcases hv with ⟨m, hmf, rfl⟩
          refine Or.inr (List.mem_append.mpr (Or.inr ?_))
          exact List.mem_map_of_mem _ (List.mem_of_mem_filter hmf)
        · rcases hstA v (List.mem_cons_of_mem _ hv) with h | h
          · exact Or.inl h
          · exact Or.inr (List.mem_append.mpr (Or.inl h))
      · -- coverage of all descendants
        intro n hn hd
        rcases hcov n hn hd with hacc | ⟨a, hastack, hchain⟩
        · exact Or.inl (List.mem_append.mpr (Or.inl hacc))
        · rcases List.mem_cons.mp hastack with rfl | harest
          case inr =>
            exact Or.inr ⟨a, List.mem_append.mpr (Or.inr harest), hchain⟩
          case inl =>
            rcases Relation.ReflTransGen.cases_tail hchain with heq | ⟨c, hrc, hstep⟩
            · -- the chain is empty: n.id = nid, already accumulated
              rcases hstA a (List.mem_cons_self _ _) with hroot | hacc2
              · exfalso
                have : Descend nodes rootId a := heq ▸ hd
                have := descend_lt hlt this
                omega
              · exact Or.inl (List.mem_append.mpr (Or.inl (heq ▸ hacc2)))
            · -- last chain step: some node mc with parent a is found now
              rcases hstep with ⟨mc, hmc, hmcid, hmcp⟩
              have hlt1 : a < mc.id := hlt mc hmc a hmcp
              have hcr : c ≠ rootId := by
                rcases hnid_ge with h | h <;> omega
              have hmcf : mc ∈ nodes.filter
                  (fun n => n.parent_id == some a && !(n.id == rootId)) := by
                refine hfound.mpr ⟨hmc, hmcp, ?_⟩
                rw [hmcid]; exact hcr
              by_cases hnc : n.id = c
              · refine Or.inl (List.mem_append.mpr (Or.inr ?_))
                simp only [List.mem_map]
                exact ⟨mc, hmcf, by rw [hmcid, hnc]⟩
              · rcases Relation.ReflTransGen.cases_tail hrc with heq2 | ⟨e, _, hstep2⟩
                · exact absurd heq2.symm hnc
                · rcases hstep2 with ⟨w, hw, _, hwp⟩
                  have hmcdir : mc.is_dir = true := hdir w hw c hwp mc hmc hmcid
                  refine Or.inr ⟨c, List.mem_append.mpr (Or.inl ?_), hrc⟩
                  simp only [List.mem_reverse, List.mem_map]
                  exact ⟨mc, List.mem_filter.mpr ⟨hmcf, hmcdir⟩, hmcid⟩

/-- The `to_remove` list of `collapse_node` contains exactly the ids of
the transitive descendants of the collapse root. -/
lemma collapseRemove_iff (nodes : List (GraphNode α)) (rootId : Nat)
    (hnd : (nodes.map (·.id)).Nodup)
    (hlt : ∀ n ∈ nodes, ∀ p, n.parent_id = some p → p < n.id)
    (hdir : ∀ n ∈ nodes, ∀ p, n.parent_id = some p →
      ∀ m ∈ nodes, m.id = p → m.is_dir = true) :
    ∀ v, v ∈ collapseRemove nodes rootId ↔
      ∃ n ∈ nodes, n.id = v ∧ Descend nodes rootId v := by
  intro v
  unfold GraphState.collapseRemove
  refine collectLoop_spec nodes rootId hnd hlt hdir _ [] [rootId] ∅
    ?_ ?_ ?_ ?_ ?_ ?_ ?_ ?_ ?_ ?_ v
  · rw [Finset.sdiff_empty]
    have h1 := Finset.card_insert_le rootId (nodes.map (·.id)).toFinset
    have h2 := (nodes.map (·.id)).toFinset_card_le
    simp only [List.length_map] at h2
    omega
  · simp
  · simp
  · simp
  · intro v hv
    simp only [List.mem_singleton] at hv
    exact Or.inl hv
  · simp
  · simp
  · intro v hv
    simp only [List.mem_singleton] at hv
    exact Or.inl hv
  · intro v hv
    simp only [List.mem_singleton] at hv
    exact Or.inl hv
  · intro n hn hd
    exact Or.inr ⟨rootId, List.mem_singleton_self _, hd.to_reflTransGen⟩

lemma collapseRemove_not_root {nodes : List (GraphNode α)} {rootId : Nat}
    (hnd : (nodes.map (·.id)).Nodup)
    (hlt : ∀ n ∈ nodes, ∀ p, n.parent_id = some p → p < n.id)
    (hdir : ∀ n ∈ nodes, ∀ p, n.parent_id = some p →
      ∀ m ∈ nodes, m.id = p → m.is_dir = true) :
    rootId ∉ collapseRemove nodes rootId := by
  intro h
  rcases (collapseRemove_iff nodes rootId hnd hlt hdir rootId).mp h with
    ⟨n, _, _, hd⟩
  have := descend_lt hlt hd
  omega

end CollapseCorrect

section Unfoldings

lemma collapse_node_eq_of_expanded {s : GraphState α} {nid : Nat}
    (hexp : ((s.nodes.find? (fun n => n.id == nid)).map (·.is_expanded)).getD
      false = true) :
    s.collapse_node nid =
      { s with
        nodes := (setExpandedFirst nid false s.nodes).filter (fun n =>
          !((collapseRemove (setExpandedFirst nid false s.nodes) nid).contains n.id))
        edges := s.edges.filter (fun e =>
          !((collapseRemove (setExpandedFirst nid false s.nodes) nid).contains e.from_id) &&
          !((collapseRemove (setExpandedFirst nid false s.nodes) nid).contains e.to_id)) } := by
  simp only [GraphState.collapse_node]
  rw [hexp]
  rfl

lemma collapse_node_eq_of_not_expanded {s : GraphState α} {nid : Nat}
    (hexp : ((s.nodes.find? (fun n => n.id == nid)).map (·.is_expanded)).getD
      false = false) :
    s.collapse_node nid = s := by
  simp only [GraphState.collapse_node]
  rw [hexp]
  rfl

lemma expand_node_eq_of_none {s : GraphState α} {nid : Nat}
    {entries : List FsEntry} {piV : α} {cosF sinF : α → α} {jit : Nat → α}
    (h : s.nodes.find? (fun n => n.id == nid) = none) :
    s.expand_node nid entries piV cosF sinF jit = s := by
  simp only [GraphState.expand_node, h]

lemma expand_node_eq_of_guard {s : GraphState α} {nid : Nat} {nd : GraphNode α}
    {entries : List FsEntry} {piV : α} {cosF sinF : α → α} {jit : Nat → α}
    (h : s.nodes.find? (fun n => n.id == nid) = some nd)
    (h2 : nd.is_dir = false ∨ nd.is_expanded = true) :
    s.expand_node nid entries piV cosF sinF jit = s := by
  simp only [GraphState.expand_node, h]
  have : (!nd.is_dir || nd.is_expanded) = true := by
    rcases h2 with h2 | h2 <;> simp [h2]
  rw [this]
  rfl

lemma expand_node_eq_of_go {s : GraphState α} {nid : Nat} {nd : GraphNode α}
    {entries : List FsEntry} {piV : α} {cosF sinF : α → α} {jit : Nat → α}
    (h : s.nodes.find? (fun n => n.id == nid) = some nd)
    (hd : nd.is_dir = true) (he : nd.is_expanded = false) :
    s.expand_node nid entries piV cosF sinF jit =
      { s with
        nodes := setExpandedFirst nid true s.nodes ++
          entries.enum.map (fun p =>
            mkChild nid nd.x nd.y piV cosF sinF jit entries.length s.next_id p.1 p.2)
        edges := s.edges ++
          entries.enum.map (fun p => GraphEdge.mk nid (s.next_id + p.1))
        next_id := s.next_id + entries.length } := by
  simp only [GraphState.expand_node, h]
  have : (!nd.is_dir || nd.is_expanded) = false := by simp [hd, he]
  rw [this]
  rfl

end Unfoldings

section Transfers

lemma parentLt_setExpandedFirst (nid : Nat) (b : Bool) {l : List (GraphNode α)}
    (hlt : ∀ n ∈ l, ∀ p, n.parent_id = some p → p < n.id) :
    ∀ n ∈ setExpandedFirst nid b l, ∀ p, n.parent_id = some p → p < n.id := by
  intro n hn p hp
  rcases mem_setExpandedFirst_shape l n hn with ⟨m, hm, e1, e2, _⟩
  have := hlt m hm p (by rw [e2, hp])
  omega

lemma parentDir_setExpandedFirst (nid : Nat) (b : Bool) {l : List (GraphNode α)}
    (hdir : ∀ n ∈ l, ∀ p, n.parent_id = some p →
      ∀ m ∈ l, m.id = p → m.is_dir = true) :
    ∀ n ∈ setExpandedFirst nid b l, ∀ p, n.parent_id = some p →
      ∀ m ∈ setExpandedFirst nid b l, m.id = p → m.is_dir = true := by
  intro n hn p hp m hm hmid
  rcases mem_setExpandedFirst_shape l n hn with ⟨n0, hn0, _, e2, _⟩
  rcases mem_setExpandedFirst_shape l m hm with ⟨m0, hm0, f1, _, f3⟩
  rw [← f3]
  exact hdir n0 hn0 p (by rw [e2, hp]) m0 hm0 (by rw [f1, hmid])

/-- Decidable check implying the `parentLt` hypothesis, for witnesses. -/
lemma parentLt_of_check (l : List (GraphNode α))
    (h : l.all (fun n =>
      match n.parent_id with
      | some p => decide (p < n.id)
      | none => true) = true) :
    ∀ n ∈ l, ∀ p, n.parent_id = some p → p < n.id := by
  intro n hn p hp
  have hn' := List.all_eq_true.mp h n hn
  rw [hp] at hn'
  exact of_decide_eq_true hn'

/-- Decidable check implying the `parentDir` hypothesis, for witnesses. -/
lemma parentDir_of_check (l : List (GraphNode α))
    (h : l.all (fun n =>
      match n.parent_id with
      | some p => l.all (fun m => !(m.id == p) || m.is_dir)
      | none => true) = true) :
    ∀ n ∈ l, ∀ p, n.parent_id = some p →
      ∀ m ∈ l, m.id = p → m.is_dir = true := by
  intro n hn p hp m hm hmid
  have hn' := List.all_eq_true.mp h n hn
  rw [hp] at hn'
  have hm' := List.all_eq_true.mp hn' m hm
  simp only [hmid, beq_self_eq_true, Bool.not_true, Bool.false_or] at hm'
  exact hm'

end Transfers


section Claim1

/-- **C1.**  On a well-formed state (distinct ids, parent ids smaller
than child ids, parents are directories — invariants of every reachable
state, see `WF_reachable` below), `collapse_node nid` on a
currently-expanded node removes exactly the ids of the transitive
`parent_id`-descendants of `nid` (never `nid` itself), drops exactly the
edges with an endpoint in that set, clears `is_expanded` on node `nid`,
and leaves every other node, edge and state field untouched. -/
theorem C1_collapse_removes_exactly_descendants (s : GraphState α) (nid : Nat)
    (hnd : (s.nodes.map (·.id)).Nodup)
    (hlt : ∀ n ∈ s.nodes, ∀ p, n.parent_id = some p → p < n.id)
    (hdir : ∀ n ∈ s.nodes, ∀ p, n.parent_id = some p →
      ∀ m ∈ s.nodes, m.id = p → m.is_dir = true)
    (hexp : ((s.nodes.find? (fun n => n.id == nid)).map (·.is_expanded)).getD
      false = true) :
    (∀ v, v ∈ collapseRemove (setExpandedFirst nid false s.nodes) nid ↔
       ∃ n ∈ s.nodes, n.id = v ∧ Descend s.nodes nid v) ∧
    nid ∉ collapseRemove (setExpandedFirst nid false s.nodes) nid ∧
    s.collapse_node nid =
      { s with
        nodes := (setExpandedFirst nid false s.nodes).filter (fun n =>
          !((collapseRemove (setExpandedFirst nid false s.nodes) nid).contains n.id))
        edges := s.edges.filter (fun e =>
          !((collapseRemove (setExpandedFirst nid false s.nodes) nid).contains e.from_id) &&
          !((collapseRemove (setExpandedFirst nid false s.nodes) nid).contains e.to_id)) } := by
  have hnd' : ((setExpandedFirst nid false s.nodes).map (·.id)).Nodup := by
    rw [setExpandedFirst_ids]; exact hnd
  have hlt' := parentLt_setExpandedFirst nid false hlt
  have hdir' := parentDir_setExpandedFirst nid false hdir
  refine ⟨?_, collapseRemove_not_root hnd' hlt' hdir',
    collapse_node_eq_of_expanded hexp⟩
  intro v
  rw [collapseRemove_iff _ nid hnd' hlt' hdir' v]
  constructor
  · rintro ⟨n, hn, rfl, hdsc⟩
    rcases mem_setExpandedFirst_shape s.nodes n hn with ⟨m, hm, e1, _, _⟩
    exact ⟨m, hm, e1, (descend_setExpandedFirst nid false s.nodes nid n.id).mp hdsc⟩
  · rintro ⟨n, hn, rfl, hdsc⟩
    rcases mem_setExpandedFirst_shape' nid false s.nodes n hn with ⟨m, hm, e1, _, _⟩
    exact ⟨m, hm, e1, (descend_setExpandedFirst nid false s.nodes nid n.id).mpr hdsc⟩

/-- Witness for C1: the three-level sample graph, collapsing the root. -/
theorem C1_witness :
    (∀ v, v ∈ collapseRemove (setExpandedFirst 0 false sample2.nodes) 0 ↔
       ∃ n ∈ sample2.nodes, n.id = v ∧ Descend sample2.nodes 0 v) ∧
    0 ∉ collapseRemove (setExpandedFirst 0 false sample2.nodes) 0 ∧
    sample2.collapse_node 0 =
      { sample2 with
        nodes := (setExpandedFirst 0 false sample2.nodes).filter (fun n =>
          !((collapseRemove (setExpandedFirst 0 false sample2.nodes) 0).contains n.id))
        edges := sample2.edges.filter (fun e =>
          !((collapseRemove (setExpandedFirst 0 false sample2.nodes) 0).contains e.from_id) &&
          !((collapseRemove (setExpandedFirst 0 false sample2.nodes) 0).contains e.to_id)) } :=
  C1_collapse_removes_exactly_descendants sample2 0 (by decide)
    (parentLt_of_check _ (by decide)) (parentDir_of_check _ (by decide))
    (by decide)

end Claim1

section Invariants

lemma bnot_contains_iff (l : List Nat) (a : Nat) :
    (!(l.contains a)) = true ↔ a ∉ l := by
  rw [Bool.not_eq_true', Bool.eq_false_iff, Ne, contains_iff_mem]

lemma expand_children_ids (entries : List FsEntry) (nid : Nat)
    (px py piV : α) (cosF sinF : α → α) (jit : Nat → α) (startId : Nat) :
    ((entries.enum.map (fun p =>
        mkChild nid px py piV cosF sinF jit entries.length startId p.1 p.2)).map
      (·.id)) = List.range' startId entries.length := by
  rw [List.map_map]
  have h1 : ((fun n : GraphNode α => n.id) ∘ fun p : Nat × FsEntry =>
      mkChild nid px py piV cosF sinF jit entries.length startId p.1 p.2) =
      (fun i => startId + i) ∘ Prod.fst := rfl
  rw [h1, ← List.map_map, List.enum_map_fst, ← List.range'_eq_map_range]

lemma mem_expand_children {entries : List FsEntry} {nid : Nat}
    {px py piV : α} {cosF sinF : α → α} {jit : Nat → α} {startId : Nat}
    {c : GraphNode α}
    (hc : c ∈ entries.enum.map (fun p =>
      mkChild nid px py piV cosF sinF jit entries.length startId p.1 p.2)) :
    c.parent_id = some nid ∧ c.is_expanded = false ∧
      startId ≤ c.id ∧ c.id < startId + entries.length := by
  have hid : c.id ∈ List.range' startId entries.length := by
    rw [← expand_children_ids entries nid px py piV cosF sinF jit startId]
    exact List.mem_map_of_mem _ hc
  rcases List.mem_map.mp hc with ⟨p, _, rfl⟩
  refine ⟨rfl, rfl, ?_, ?_⟩
  · exact (List.mem_range'_1.mp hid).1
  · exact (List.mem_range'_1.mp hid).2

/-- The freshly started engine (root only) is well-formed. -/
lemma WF_init (path label : String) :
    WF ((GraphState.new (α := α)).add_root path label) := by
  constructor
  · intro n hn
    simp only [GraphState.new, GraphState.add_root, List.nil_append,
      List.mem_singleton] at hn
    subst hn
    simp [GraphState.new, GraphState.add_root]
  · simp [GraphState.new, GraphState.add_root]
  · intro e he
    simp [GraphState.new, GraphState.add_root] at he
  · intro n hn p hp
    simp only [GraphState.new, GraphState.add_root, List.nil_append,
      List.mem_singleton] at hn
    subst hn
    simp at hp
  · intro n hn p hp
    simp only [GraphState.new, GraphState.add_root, List.nil_append,
      List.mem_singleton] at hn
    subst hn
    simp at hp
  · intro n hn _ c hc
    simp only [GraphState.new, GraphState.add_root, List.nil_append,
      List.mem_singleton] at hc
    subst hc
    simp

/-- `expand_node` preserves well-formedness. -/
lemma WF_expand (s : GraphState α) (hWF : WF s) (nid : Nat)
    (entries : List FsEntry) (piV : α) (cosF sinF : α → α) (jit : Nat → α) :
    WF (s.expand_node nid entries piV cosF sinF jit) := by
  cases hfind : s.nodes.find? (fun n => n.id == nid) with
  | none => rw [expand_node_eq_of_none hfind]; exact hWF
  | some nd =>
    by_cases hgo : nd.is_dir = true ∧ nd.is_expanded = false
    case neg =>
      have h2 : nd.is_dir = false ∨ nd.is_expanded = true := by
        cases hdd : nd.is_dir <;> cases hee : nd.is_expanded <;> simp_all
      rw [expand_node_eq_of_guard hfind h2]
      exact hWF
    case pos =>
      rw [expand_node_eq_of_go hfind hgo.1 hgo.2]
      have hndmem : nd ∈ s.nodes := List.mem_of_find?_eq_some hfind
      have hndid : nd.id = nid := by
        have := List.find?_some hfind
        simpa using this
      have hnidlt : nid < s.next_id := hndid ▸ hWF.idBound nd hndmem
      have hchild : ∀ {c : GraphNode α},
          c ∈ entries.enum.map (fun p =>
            mkChild nid nd.x nd.y piV cosF sinF jit entries.length s.next_id p.1 p.2) →
          c.parent_id = some nid ∧ c.is_expanded = false ∧
            s.next_id ≤ c.id ∧ c.id < s.next_id + entries.length :=
        fun hc => mem_expand_children hc
      constructor
      · -- idBound
        intro n hn
        rcases List.mem_append.mp hn with hn | hn
        · rcases mem_setExpandedFirst_shape s.nodes n hn with ⟨m, hm, e1, _, _⟩
          have := hWF.idBound m hm
          simp only []
          omega
        · have := (hchild hn).2.2.2
          simp only []
          omega
      · -- idNodup
        simp only [List.map_append, setExpandedFirst_ids, expand_children_ids]
        refine List.Nodup.append hWF.idNodup (List.nodup_range' _ _) ?_
        intro v hv hv'
        have h1 := hWF.idBound
        rcases List.mem_map.mp hv with ⟨m, hm, rfl⟩
        have := h1 m hm
        have := List.mem_range'_1.mp hv'
        omega
      · -- edgeLive
        intro e he
        rcases List.mem_append.mp he with he | he
        · rcases hWF.edgeLive e he with ⟨⟨n1, hn1, he1⟩, ⟨n2, hn2, he2⟩⟩
          rcases mem_setExpandedFirst_shape' nid true s.nodes n1 hn1
            with ⟨m1, hm1, f1, _, _⟩
          rcases mem_setExpandedFirst_shape' nid true s.nodes n2 hn2
            with ⟨m2, hm2, f2, _, _⟩
          exact ⟨⟨m1, List.mem_append.mpr (Or.inl hm1), by rw [f1, he1]⟩,
            ⟨m2, List.mem_append.mpr (Or.inl hm2), by rw [f2, he2]⟩⟩
        · rcases List.mem_map.mp he with ⟨p, hp, rfl⟩
          constructor
          · rcases mem_setExpandedFirst_shape' nid true s.nodes nd hndmem
              with ⟨m1, hm1, f1, _, _⟩
            exact ⟨m1, List.mem_append.mpr (Or.inl hm1), by rw [f1, hndid]⟩
          · have hpfst : p.1 < entries.length := by
              have : p.1 ∈ (entries.enum.map Prod.fst) := List.mem_map_of_mem _ hp
              rw [List.enum_map_fst] at this
              exact List.mem_range.mp this
            have : s.next_id + p.1 ∈ List.range' s.next_id entries.length := by
              rw [List.mem_range'_1]
              omega
            rw [← expand_children_ids entries nid nd.x nd.y piV cosF sinF jit s.next_id]
              at this
            rcases List.mem_map.mp this with ⟨c, hcmem, hcid⟩
            exact ⟨c, List.mem_append.mpr (Or.inr hcmem), hcid⟩
      · -- parentLt
        intro n hn p hp
        rcases List.mem_append.mp hn with hn | hn
        · exact parentLt_setExpandedFirst nid true hWF.parentLt n hn p hp
        · have h1 := (hchild hn).1
          rw [hp] at h1
          injection h1 with h1
          have := (hchild hn).2.2.1
          omega
      · -- parentDir
        intro n hn p hp m hm hmid
        rcases List.mem_append.mp hn with hn | hn
        · rcases mem_setExpandedFirst_shape s.nodes n hn with ⟨n0, hn0, _, e2, _⟩
          have hplt : p < n0.id := hWF.parentLt n0 hn0 p (by rw [e2, hp])
          have hpbound : p < s.next_id := lt_trans hplt (hWF.idBound n0 hn0)
          rcases List.mem_append.mp hm with hm | hm
          · rcases mem_setExpandedFirst_shape s.nodes m hm with ⟨m0, hm0, f1, _, f3⟩
            rw [← f3]
            exact hWF.parentDir n0 hn0 p (by rw [e2, hp]) m0 hm0 (by rw [f1, hmid])
          · have := (hchild hm).2.2.1
            omega
        · have h1 := (hchild hn).1
          rw [hp] at h1
          injection h1 with h1
          subst h1
          rcases List.mem_append.mp hm with hm | hm
          · rcases mem_setExpandedFirst_shape s.nodes m hm with ⟨m0, hm0, f1, _, f3⟩
            have : m0 = nd := node_inj hWF.idNodup hm0 hndmem (by rw [f1, hmid, hndid])
            rw [← f3, this]
            exact hgo.1
          · have := (hchild hm).2.2.1
            have hmid' := hmid
            omega
      · -- noChildUnexpanded
        intro n hn hflag c hc hcp
        rcases List.mem_append.mp hn with hn | hn
        · have hne : n.id ≠ nid :=
            setExpandedFirst_unexpanded_ne s.nodes hWF.idNodup n hn hflag
          rcases mem_setExpandedFirst_cases s.nodes n hn with hold | ⟨m, _, hmid, rfl⟩
          · rcases List.mem_append.mp hc with hc | hc
            · rcases mem_setExpandedFirst_shape s.nodes c hc with ⟨c0, hc0, _, g2, _⟩
              exact hWF.noChildUnexpanded n hold hflag c0 hc0 (by rw [g2, hcp])
            · have := (hchild hc).1
              rw [hcp] at this
              injection this with this
              exact hne this
          · simp at hflag
        · have hnbig := (hchild hn).2.2.1
          rcases List.mem_append.mp hc with hc | hc
          · rcases mem_setExpandedFirst_shape s.nodes c hc with ⟨c0, hc0, g1, g2, _⟩
            have h1 : n.id < c0.id := hWF.parentLt c0 hc0 n.id (by rw [g2, hcp])
            have h2 := hWF.idBound c0 hc0
            omega
          · have h1 := (hchild hc).1
            rw [hcp] at h1
            injection h1 with h1
            omega

/-- `collapse_node` preserves well-formedness. -/
lemma WF_collapse (s : GraphState α) (hWF : WF s) (nid : Nat) :
    WF (s.collapse_node nid) := by
  by_cases hexp : ((s.nodes.find? (fun n => n.id == nid)).map
      (·.is_expanded)).getD false = true
  case neg =>
    rw [collapse_node_eq_of_not_expanded (Bool.eq_false_iff.mpr hexp)]
    exact hWF
  case pos =>
    rw [collapse_node_eq_of_expanded hexp]
    have hnd' : ((setExpandedFirst nid false s.nodes).map (·.id)).Nodup := by
      rw [setExpandedFirst_ids]; exact hWF.idNodup
    have hlt' := parentLt_setExpandedFirst nid false hWF.parentLt
    have hdir' := parentDir_setExpandedFirst nid false hWF.parentDir
    have hmemN : ∀ {n : GraphNode α},
        n ∈ (setExpandedFirst nid false s.nodes).filter (fun n =>
          !((collapseRemove (setExpandedFirst nid false s.nodes) nid).contains n.id)) ↔
        n ∈ setExpandedFirst nid false s.nodes ∧
          n.id ∉ collapseRemove (setExpandedFirst nid false s.nodes) nid := by
      intro n
      rw [List.mem_filter, bnot_contains_iff]
    constructor
    · -- idBound
      intro n hn
      rcases mem_setExpandedFirst_shape s.nodes n (hmemN.mp hn).1 with ⟨m, hm, e1, _, _⟩
      have := hWF.idBound m hm
      simp only []
      omega
    · -- idNodup
      refine List.Nodup.sublist (List.Sublist.map _ (List.filter_sublist _)) ?_
      rw [setExpandedFirst_ids]
      exact hWF.idNodup
    · -- edgeLive
      intro e he
      rw [List.mem_filter] at he
      have hcond := he.2
      rw [Bool.and_eq_true, bnot_contains_iff, bnot_contains_iff] at hcond
      rcases hWF.edgeLive e he.1 with ⟨⟨n1, hn1, he1⟩, ⟨n2, hn2, he2⟩⟩
      rcases mem_setExpandedFirst_shape' nid false s.nodes n1 hn1
        with ⟨m1, hm1, f1, _, _⟩
      rcases mem_setExpandedFirst_shape' nid false s.nodes n2 hn2
        with ⟨m2, hm2, f2, _, _⟩
      constructor
      · exact ⟨m1, hmemN.mpr ⟨hm1, by rw [f1, he1]; exact hcond.1⟩, by rw [f1, he1]⟩
      · exact ⟨m2, hmemN.mpr ⟨hm2, by rw [f2, he2]; exact hcond.2⟩, by rw [f2, he2]⟩
    · -- parentLt
      intro n hn p hp
      exact hlt' n (hmemN.mp hn).1 p hp
    · -- parentDir
      intro n hn p hp m hm hmid
      exact hdir' n (hmemN.mp hn).1 p hp m (hmemN.mp hm).1 hmid
    · -- noChildUnexpanded
      intro n hn hflag c hc hcp
      rcases hmemN.mp hn with ⟨hn1, _⟩
      rcases hmemN.mp hc with ⟨hc1, hc2⟩
      rcases mem_setExpandedFirst_cases s.nodes n hn1 with hold | ⟨m, _, hmid, rfl⟩
      · -- an untouched node that was already unexpanded: had no children before
        rcases mem_setExpandedFirst_shape s.nodes c hc1 with ⟨c0, hc0, _, g2, _⟩
        exact hWF.noChildUnexpanded n hold hflag c0 hc0 (by rw [g2, hcp])
      · -- the collapse root itself: all its children are in the removal set
        apply hc2
        refine (collapseRemove_iff _ nid hnd' hlt' hdir' c.id).mpr ?_
        refine ⟨c, hc1, rfl, Relation.TransGen.single ?_⟩
        refine ⟨c, hc1, rfl, ?_⟩
        rw [hcp]
        exact congrArg some hmid

/-- Every graph-store operation preserves well-formedness. -/
lemma WF_applyOp (s : GraphState α) (hWF : WF s) (op : GOp α) :
    WF (applyOp s op) := by
  cases op with
  | expand nid entries piV cosF sinF jit =>
    exact WF_expand s hWF nid entries piV cosF sinF jit
  | collapse nid => exact WF_collapse s hWF nid

/-- Every state visited while applying a sequence of operations to a
well-formed state is well-formed. -/
lemma WF_reachable : ∀ (ops : List (GOp α)) (s : GraphState α), WF s →
    ∀ t ∈ List.scanl applyOp s ops, WF t := by
  intro ops
  induction ops with
  | nil =>
    intro s hWF t ht
    simp only [List.scanl_nil, List.mem_singleton] at ht
    exact ht ▸ hWF
  | cons op ops ih =>
    intro s hWF t ht
    rw [List.scanl_cons] at ht
    rcases List.mem_append.mp ht with ht | ht
    · simp only [List.mem_singleton] at ht
      exact ht ▸ hWF
    · exact ih (applyOp s op) (WF_applyOp s hWF op) t ht

/-- `collapse_node` never changes the id counter. -/
lemma collapse_next_id (s : GraphState α) (nid : Nat) :
    (s.collapse_node nid).next_id = s.next_id := by
  by_cases hexp : ((s.nodes.find? (fun n => n.id == nid)).map
      (·.is_expanded)).getD false = true
  · rw [collapse_node_eq_of_expanded hexp]
  · rw [collapse_node_eq_of_not_expanded (Bool.eq_false_iff.mpr hexp)]

/-- Freshly created ids of one operation: they sit between the old and
the new value of the id counter, and the counter never decreases. -/
lemma opCreated_spec (s : GraphState α) (op : GOp α) :
    (∀ v ∈ opCreated s op, s.next_id ≤ v ∧ v < (applyOp s op).next_id) ∧
    s.next_id ≤ (applyOp s op).next_id ∧ (opCreated s op).Nodup := by
  cases op with
  | collapse nid =>
    simp [opCreated, applyOp, collapse_next_id]
  | expand nid entries piV cosF sinF jit =>
    cases hfind : s.nodes.find? (fun n => n.id == nid) with
    | none =>
      simp only [opCreated, applyOp, hfind, expand_node_eq_of_none hfind]
      simp
    | some nd =>
      by_cases hgo : nd.is_dir = true ∧ nd.is_expanded = false
      case neg =>
        have h2 : nd.is_dir = false ∨ nd.is_expanded = true := by
          cases hdd : nd.is_dir <;> cases hee : nd.is_expanded <;> simp_all
        have hguard : (!nd.is_dir || nd.is_expanded) = true := by
          rcases h2 with h2 | h2 <;> simp [h2]
        simp only [opCreated, applyOp, hfind, hguard,
          expand_node_eq_of_guard hfind h2]
        simp
      case pos =>
        have hguard : (!nd.is_dir || nd.is_expanded) = false := by
          simp [hgo.1, hgo.2]
        simp only [opCreated, applyOp, hfind, hguard,
          expand_node_eq_of_go hfind hgo.1 hgo.2]
        refine ⟨?_, ?_, ?_⟩
        · intro v hv
          simp only [Bool.false_eq_true, if_false] at hv
          have := List.mem_range'_1.mp hv
          refine ⟨this.1, ?_⟩
          show v < s.next_id + entries.length
          omega
        · show s.next_id ≤ s.next_id + entries.length
          omega
        · simp only [Bool.false_eq_true, if_false]
          exact List.nodup_range' _ _

lemma applyOp_next_id_mono (s : GraphState α) (op : GOp α) :
    s.next_id ≤ (applyOp s op).next_id :=
  (opCreated_spec s op).2.1

lemma runCreated_lb : ∀ (ops : List (GOp α)) (s : GraphState α),
    ∀ v ∈ runCreated s ops, s.next_id ≤ v := by
  intro ops
  induction ops with
  | nil => intro s v hv; simp [runCreated] at hv
  | cons op ops ih =>
    intro s v hv
    rcases List.mem_append.mp hv with hv | hv
    · exact ((opCreated_spec s op).1 v hv).1
    · exact le_trans (applyOp_next_id_mono s op) (ih (applyOp s op) v hv)

lemma runCreated_nodup : ∀ (ops : List (GOp α)) (s : GraphState α),
    (runCreated s ops).Nodup := by
  intro ops
  induction ops with
  | nil => intro s; simp [runCreated]
  | cons op ops ih =>
    intro s
    refine List.Nodup.append ((opCreated_spec s op).2.2) (ih (applyOp s op)) ?_
    intro v hv hv'
    have h1 := ((opCreated_spec s op).1 v hv).2
    have h2 := runCreated_lb ops (applyOp s op) v hv'
    omega

end Invariants

section Claim2

/-- **C2.**  Starting from a fresh engine with a single root node (id
0), after any finite sequence of `expand_node`/`collapse_node` calls:
every intermediate state's edges reference only ids of currently-live
nodes, and the root id together with every id ever allocated by the
sequence are pairwise distinct — ids of deleted nodes are never
reallocated. -/
theorem C2_edges_live_and_ids_never_reused (path label : String)
    (ops : List (GOp α)) :
    (∀ t ∈ List.scanl applyOp ((GraphState.new (α := α)).add_root path label) ops,
       ∀ e ∈ t.edges,
         (∃ n ∈ t.nodes, n.id = e.from_id) ∧ (∃ n ∈ t.nodes, n.id = e.to_id)) ∧
    (0 :: runCreated ((GraphState.new (α := α)).add_root path label) ops).Nodup := by
  have hWF0 := WF_init (α := α) path label
  constructor
  · intro t ht e he
    exact (WF_reachable ops _ hWF0 t ht).edgeLive e he
  · rw [List.nodup_cons]
    refine ⟨?_, runCreated_nodup ops _⟩
    intro h0
    have := runCreated_lb ops _ 0 h0
    simp [GraphState.new, GraphState.add_root] at this

end Claim2

section Claim3

/-- The reachable state in which the root directory was expanded against
an empty listing (empty or unreadable directory). -/
def sampleEmptyExpand : GraphState ℚ :=
  sample0.expand_node 0 [] 0 (fun _ => 0) (fun _ => 0) (fun _ => 0)

/-- **C3, counterexample.**  In the reachable state where the root was
expanded against an empty directory listing, the root node has
`is_expanded = true` and no current children: the claimed equivalence
"`expanded` is true iff at least one child exists" is false. -/
theorem C3_counterexample :
    ¬ (∀ n ∈ sampleEmptyExpand.nodes,
        (n.is_expanded = true ↔
          ∃ c ∈ sampleEmptyExpand.nodes, c.parent_id = some n.id)) := by
  decide

/-- **C3, amended.**  Only one direction of the claim holds on the code:
in every reachable state, a node whose `is_expanded` flag is false has
no child in the store (equivalently, a node with a live child is marked
expanded).  The converse fails: a directory whose expansion produced
zero children keeps `expanded = true` (see `C3_counterexample`). -/
theorem C3_amended_unexpanded_has_no_children (path label : String)
    (ops : List (GOp α)) :
    ∀ t ∈ List.scanl applyOp ((GraphState.new (α := α)).add_root path label) ops,
      ∀ n ∈ t.nodes, n.is_expanded = false →
        ∀ c ∈ t.nodes, c.parent_id ≠ some n.id := by
  intro t ht
  exact (WF_reachable ops _ (WF_init path label) t ht).noChildUnexpanded

/-- Witness for the amended C3: the fresh unexpanded root has no
children. -/
theorem C3_amended_witness : rootNodeQ.parent_id ≠ some rootNodeQ.id :=
  C3_amended_unexpanded_has_no_children "/r" "r" [] sample0
    (by rw [List.scanl_nil]; exact List.mem_singleton_self _)
    rootNodeQ
    (by simp [sample0, GraphState.new, GraphState.add_root, rootNodeQ])
    rfl rootNodeQ
    (by simp [sample0, GraphState.new, GraphState.add_root, rootNodeQ])

end Claim3

section Claim5

/-- One scroll event leaves the zoom inside the configured clamp
range, whatever the previous zoom was. -/
lemma applyScroll_zoom_bounds (s : GraphState α) (dy : α) :
    1 / 10 ≤ (applyScroll s dy).zoom ∧ (applyScroll s dy).zoom ≤ 5 := by
  have key : ∀ z : α,
      1 / 10 ≤ (if z < 1 / 10 then (1 : α) / 10 else if 5 < z then 5 else z) ∧
      (if z < 1 / 10 then (1 : α) / 10 else if 5 < z then 5 else z) ≤ 5 := by
    intro z
    split_ifs with h1 h2
    · constructor <;> norm_num
    · constructor <;> norm_num
    · exact ⟨le_of_not_lt h1, le_of_not_lt h2⟩
  simp only [applyScroll]
  exact key _

lemma foldl_applyScroll_bounds :
    ∀ (dys : List α) (s : GraphState α), 1 / 10 ≤ s.zoom → s.zoom ≤ 5 →
      1 / 10 ≤ (List.foldl applyScroll s dys).zoom ∧
        (List.foldl applyScroll s dys).zoom ≤ 5 := by
  intro dys
  induction dys with
  | nil => intro s h1 h2; exact ⟨h1, h2⟩
  | cons d dys ih =>
    intro s _ _
    rw [List.foldl_cons]
    exact ih (applyScroll s d) (applyScroll_zoom_bounds s d).1
      (applyScroll_zoom_bounds s d).2

/-- **C5.**  From the initial camera (`zoom = 1`), the zoom stays inside
`[0.1, 5.0]` after any finite sequence of scroll events, and a single
zoom-in event (`dy < 0`, factor `1.1`) at `zoom = 1` yields exactly
`zoom = 1.1`. -/
theorem C5_zoom_clamped (s : GraphState α) (hz : s.zoom = 1)
    (dys : List α) :
    (1 / 10 ≤ (List.foldl applyScroll s dys).zoom ∧
      (List.foldl applyScroll s dys).zoom ≤ 5) ∧
    ∀ dy : α, dy < 0 → (applyScroll s dy).zoom = 11 / 10 := by
  constructor
  · exact foldl_applyScroll_bounds dys s (by rw [hz]; norm_num)
      (by rw [hz]; norm_num)
  · intro dy hdy
    simp only [applyScroll, if_pos hdy, hz, one_mul]
    have h1 : ¬ ((11 : α) / 10 < 1 / 10) := by norm_num
    have h2 : ¬ ((5 : α) < 11 / 10) := by norm_num
    rw [if_neg h1, if_neg h2]

/-- Witness for C5: ten zoom-ins on the fresh engine stay in range, and
one zoom-in from `zoom = 1` gives exactly `11/10`. -/
theorem C5_witness :
    (1 / 10 ≤ (List.foldl applyScroll sample0 (List.replicate 10 (-1 : ℚ))).zoom ∧
      (List.foldl applyScroll sample0 (List.replicate 10 (-1 : ℚ))).zoom ≤ 5) ∧
    (applyScroll sample0 (-1 : ℚ)).zoom = 11 / 10 :=
  ⟨(C5_zoom_clamped sample0 rfl (List.replicate 10 (-1 : ℚ))).1,
    (C5_zoom_clamped sample0 rfl []).2 (-1) (by norm_num)⟩

end Claim5

section Claim6

lemma find?_eq_filter_head {β : Type} (p : β → Bool) :
    ∀ l : List β, l.find? p = (l.filter p).head?
  | [] => rfl
  | a :: l => by
    by_cases h : p a = true
    · rw [List.find?_cons_of_pos _ h, List.filter_cons_of_pos h, List.head?_cons]
    · rw [List.find?_cons_of_neg _ h, List.filter_cons_of_neg h,
        find?_eq_filter_head p l]

/-- **C6.**  `node_at` returns `none` exactly when the point lies
strictly outside every node's radius, and otherwise the id of the last
inserted (most recent) node whose disc contains the point: the reverse
iteration makes the most recently added overlapping node win. -/
theorem C6_node_at_hit_test (s : GraphState α) (wx wy : α) :
    (s.node_at wx wy = none ↔ ∀ n ∈ s.nodes,
      n.radius * n.radius <
        (wx - n.x) * (wx - n.x) + (wy - n.y) * (wy - n.y)) ∧
    s.node_at wx wy =
      ((s.nodes.filter (fun n =>
        decide ((wx - n.x) * (wx - n.x) + (wy - n.y) * (wy - n.y) ≤
          n.radius * n.radius))).getLast?).map (·.id) := by
  have hmain : s.node_at wx wy =
      ((s.nodes.filter (fun n =>
        decide ((wx - n.x) * (wx - n.x) + (wy - n.y) * (wy - n.y) ≤
          n.radius * n.radius))).getLast?).map (·.id) := by
    unfold GraphState.node_at
    rw [find?_eq_filter_head, List.filter_reverse, List.head?_reverse]
  refine ⟨?_, hmain⟩
  rw [hmain]
  rw [Option.map_eq_none', List.getLast?_eq_none_iff, List.filter_eq_nil_iff]
  constructor
  · intro h n hn
    have := h n hn
    rw [decide_eq_true_iff] at this
    exact lt_of_not_le this
  · intro h n hn
    rw [decide_eq_true_iff]
    exact not_le_of_lt (h n hn)

end Claim6

section Claim7

/-- **C7.**  `expand_node` is a no-op when the id is unknown, or when
the first node carrying the id is a non-directory or already expanded;
`collapse_node` is a no-op when the id is unknown or the node is not
currently expanded (both cases are exactly `is_expanded` defaulting to
`false`). -/
theorem C7_noops (s : GraphState α) (nid : Nat) (entries : List FsEntry)
    (piV : α) (cosF sinF : α → α) (jit : Nat → α) :
    (s.nodes.find? (fun n => n.id == nid) = none →
      s.expand_node nid entries piV cosF sinF jit = s) ∧
    (((s.nodes.find? (fun n => n.id == nid)).map
        (fun n => !n.is_dir || n.is_expanded)).getD false = true →
      s.expand_node nid entries piV cosF sinF jit = s) ∧
    (((s.nodes.find? (fun n => n.id == nid)).map (·.is_expanded)).getD
        false = false →
      s.collapse_node nid = s) := by
  refine ⟨fun h => expand_node_eq_of_none h, ?_, fun h =>
    collapse_node_eq_of_not_expanded h⟩
  intro h
  cases hfind : s.nodes.find? (fun n => n.id == nid) with
  | none => exact expand_node_eq_of_none hfind
  | some nd =>
    rw [hfind] at h
    simp only [Option.map_some', Option.getD_some, Bool.or_eq_true,
      Bool.not_eq_true'] at h
    rcases h with h | h
    · exact expand_node_eq_of_guard hfind (Or.inl h)
    · exact expand_node_eq_of_guard hfind (Or.inr h)

/-- Witness for C7: unknown id 99, the file node 2 (non-directory), and
collapsing the unexpanded file node 2, all on the sample graph. -/
theorem C7_witness :
    (sample1.expand_node 99 [] 0 (fun _ => 0) (fun _ => 0) (fun _ => 0) =
      sample1) ∧
    (sample1.expand_node 2 [] 0 (fun _ => 0) (fun _ => 0) (fun _ => 0) =
      sample1) ∧
    sample1.collapse_node 2 = sample1 :=
  ⟨(C7_noops sample1 99 [] 0 (fun _ => 0) (fun _ => 0) (fun _ => 0)).1
      (by decide),
    (C7_noops sample1 2 [] 0 (fun _ => 0) (fun _ => 0) (fun _ => 0)).2.1
      (by decide),
    (C7_noops sample1 2 [] 0 (fun _ => 0) (fun _ => 0) (fun _ => 0)).2.2
      (by decide)⟩

end Claim7

section Claim10

/-- **C10.**  The state carries a `physics_enabled` flag; when it is
false, one physics step returns the state completely unchanged. -/
theorem C10_physics_disabled_noop (sqrtF : α → α) (s : GraphState α)
    (h : s.physics_enabled = false) : s.physics_step sqrtF = s := by
  unfold GraphState.physics_step
  rw [h]
  rfl

/-- Witness for C10: the sample graph with physics switched off. -/
theorem C10_witness :
    ({ sample1 with physics_enabled := false } : GraphState ℚ).physics_step
      (fun x => x) = { sample1 with physics_enabled := false } :=
  C10_physics_disabled_noop (fun x => x) _ rfl

end Claim10

section Claim4

lemma mapIdxFrom_get? (f : Nat → GraphNode α → GraphNode α) :
    ∀ (k : Nat) (l : List (GraphNode α)) (i : Nat),
      (mapIdxFrom f k l).get? i = (l.get? i).map (f (k + i))
  | _, [], _ => by simp [mapIdxFrom]
  | _, nd :: rest, 0 => by simp [mapIdxFrom]
  | k, nd :: rest, i + 1 => by
    show (mapIdxFrom f (k + 1) rest).get? i = (rest.get? i).map (f (k + (i + 1)))
    rw [mapIdxFrom_get? f (k + 1) rest i]
    have harith : k + 1 + i = k + (i + 1) := by omega
    rw [harith]

/-- Norm of the clamped velocity: rescaling by `max_speed / speed` gives
a vector of norm exactly `max_speed = 8`. -/
lemma clamp_norm_eq (vx vy : ℝ) (h : 8 < Real.sqrt (vx ^ 2 + vy ^ 2)) :
    Real.sqrt ((vx / Real.sqrt (vx ^ 2 + vy ^ 2) * 8) ^ 2 +
      (vy / Real.sqrt (vx ^ 2 + vy ^ 2) * 8) ^ 2) = 8 := by
  have hsp : (0 : ℝ) < Real.sqrt (vx ^ 2 + vy ^ 2) := lt_trans (by norm_num) h
  have hne : Real.sqrt (vx ^ 2 + vy ^ 2) ≠ 0 := ne_of_gt hsp
  have hsq : Real.sqrt (vx ^ 2 + vy ^ 2) ^ 2 = vx ^ 2 + vy ^ 2 :=
    Real.sq_sqrt (by positivity)
  have hval : (vx / Real.sqrt (vx ^ 2 + vy ^ 2) * 8) ^ 2 +
      (vy / Real.sqrt (vx ^ 2 + vy ^ 2) * 8) ^ 2 = 64 := by
    have expand : (vx / Real.sqrt (vx ^ 2 + vy ^ 2) * 8) ^ 2 +
        (vy / Real.sqrt (vx ^ 2 + vy ^ 2) * 8) ^ 2 =
        (vx ^ 2 + vy ^ 2) / Real.sqrt (vx ^ 2 + vy ^ 2) ^ 2 * 64 := by
      ring
    have hpos : (0 : ℝ) < vx ^ 2 + vy ^ 2 := Real.sqrt_pos.mp hsp
    rw [expand, hsq, div_self (ne_of_gt hpos), one_mul]
  rw [hval, show (64 : ℝ) = 8 ^ 2 by norm_num, Real.sqrt_sq (by norm_num)]

/-- **C4.**  With physics enabled, one `physics_step` updates the node
at index `i` as follows.  If it is the dragged node, its velocity is set
to exactly zero and its position (and every other field) is unchanged.
Otherwise `v' = (v + F_i) * 0.85` with `F_i` the accumulated force; if
`|v'| > 8` the velocity is rescaled to norm exactly `8`; the position
moves by the new velocity; all remaining fields are unchanged; and the
resulting speed never exceeds `max_speed = 8`. -/
theorem C4_physics_integration (s : GraphState ℝ) (i : Nat)
    (nd : GraphNode ℝ) (h : s.nodes.get? i = some nd)
    (hp : s.physics_enabled = true) :
    ∃ nd', (s.physics_step Real.sqrt).nodes.get? i = some nd' ∧
      (s.dragged_node = some nd.id → nd' = { nd with vx := 0, vy := 0 }) ∧
      (s.dragged_node ≠ some nd.id →
        (nd'.vx, nd'.vy) =
          (let vx1 := (nd.vx + fGet (accumForces Real.sqrt s.nodes s.edges).1 i) *
              (85 / 100)
           let vy1 := (nd.vy + fGet (accumForces Real.sqrt s.nodes s.edges).2 i) *
              (85 / 100)
           if 8 < Real.sqrt (vx1 ^ 2 + vy1 ^ 2) then
             (vx1 / Real.sqrt (vx1 ^ 2 + vy1 ^ 2) * 8,
              vy1 / Real.sqrt (vx1 ^ 2 + vy1 ^ 2) * 8)
           else (vx1, vy1)) ∧
        nd'.x = nd.x + nd'.vx ∧ nd'.y = nd.y + nd'.vy ∧
        Real.sqrt (nd'.vx ^ 2 + nd'.vy ^ 2) ≤ 8) ∧
      nd'.id = nd.id ∧ nd'.label = nd.label ∧ nd'.path = nd.path ∧
      nd'.is_dir = nd.is_dir ∧ nd'.is_expanded = nd.is_expanded ∧
      nd'.parent_id = nd.parent_id ∧ nd'.radius = nd.radius ∧
      nd'.color = nd.color ∧
      (s.dragged_node = some nd.id → nd'.x = nd.x ∧ nd'.y = nd.y) := by
  have hlen : i < s.nodes.length := by
    rcases List.get?_eq_some.mp h with ⟨hl, _⟩
    exact hl
  have hne0 : ¬ s.nodes.length = 0 := by omega
  unfold GraphState.physics_step
  rw [hp]
  simp only [Bool.not_true, Bool.false_eq_true, if_false, if_neg hne0]
  refine ⟨integrateNode Real.sqrt s.dragged_node
    (accumForces Real.sqrt s.nodes s.edges).1
    (accumForces Real.sqrt s.nodes s.edges).2 i nd, ?_, ?_, ?_, ?_⟩
  · rw [mapIdxFrom_get? _ 0 s.nodes i, h]
    simp only [Nat.zero_add, Option.map_some']
  · intro hdrag
    have hbeq : (some nd.id == s.dragged_node) = true := by
      rw [hdrag]
      exact beq_self_eq_true _
    unfold integrateNode
    rw [hbeq, if_pos rfl]
  · intro hdrag
    have hbeq : (some nd.id == s.dragged_node) = false := by
      rw [beq_eq_false_iff_ne]
      intro heq
      exact hdrag heq.symm
    unfold integrateNode
    rw [hbeq]
    simp only [Bool.false_eq_true, if_false]
    by_cases hsp : 8 < Real.sqrt
        (((nd.vx + fGet (accumForces Real.sqrt s.nodes s.edges).1 i) * (85 / 100)) ^ 2 +
         ((nd.vy + fGet (accumForces Real.sqrt s.nodes s.edges).2 i) * (85 / 100)) ^ 2)
    · refine ⟨by simp only [if_pos hsp], trivial, trivial, ?_⟩
      simp only [if_pos hsp]
      rw [clamp_norm_eq _ _ hsp]
    · refine ⟨by simp only [if_neg hsp], trivial, trivial, ?_⟩
      simp only [if_neg hsp]
      exact le_of_not_lt hsp
  · unfold integrateNode
    by_cases hbeq : (some nd.id == s.dragged_node) = true
    · rw [hbeq, if_pos rfl]
      exact ⟨rfl, rfl, rfl, rfl, rfl, rfl, rfl, rfl, fun _ => ⟨rfl, rfl⟩⟩
    · rw [Bool.eq_false_iff.mpr hbeq]
      simp only [Bool.false_eq_true, if_false]
      refine ⟨trivial, trivial, trivial, trivial, trivial, trivial, trivial,
        trivial, fun hdrag => ?_⟩
      exfalso
      exact hbeq (by rw [hdrag]; exact beq_self_eq_true _)

/-- Witness for C4: a single free node at rest with physics enabled. -/
theorem C4_witness :
    (sample0R.nodes.get? 0 = some rootNodeR ∧
      sample0R.physics_enabled = true) ∧
    ∃ nd', (sample0R.physics_step Real.sqrt).nodes.get? 0 = some nd' ∧
      (sample0R.dragged_node = some rootNodeR.id →
        nd' = { rootNodeR with vx := 0, vy := 0 }) ∧
      (sample0R.dragged_node ≠ some rootNodeR.id →
        (nd'.vx, nd'.vy) =
          (let vx1 := (rootNodeR.vx +
              fGet (accumForces Real.sqrt sample0R.nodes sample0R.edges).1 0) *
              (85 / 100)
           let vy1 := (rootNodeR.vy +
              fGet (accumForces Real.sqrt sample0R.nodes sample0R.edges).2 0) *
              (85 / 100)
           if 8 < Real.sqrt (vx1 ^ 2 + vy1 ^ 2) then
             (vx1 / Real.sqrt (vx1 ^ 2 + vy1 ^ 2) * 8,
              vy1 / Real.sqrt (vx1 ^ 2 + vy1 ^ 2) * 8)
           else (vx1, vy1)) ∧
        nd'.x = rootNodeR.x + nd'.vx ∧ nd'.y = rootNodeR.y + nd'.vy ∧
        Real.sqrt (nd'.vx ^ 2 + nd'.vy ^ 2) ≤ 8) ∧
      nd'.id = rootNodeR.id ∧ nd'.label = rootNodeR.label ∧
      nd'.path = rootNodeR.path ∧ nd'.is_dir = rootNodeR.is_dir ∧
      nd'.is_expanded = rootNodeR.is_expanded ∧
      nd'.parent_id = rootNodeR.parent_id ∧ nd'.radius = rootNodeR.radius ∧
      nd'.color = rootNodeR.color ∧
      (sample0R.dragged_node = some rootNodeR.id →
        nd'.x = rootNodeR.x ∧ nd'.y = rootNodeR.y) :=
  ⟨⟨rfl, rfl⟩, C4_physics_integration sample0R 0 rootNodeR rfl rfl⟩

end Claim4

section Claim8


/-- With a single node there are no repulsion pairs, and every spring
contribution is zero (both endpoints resolve to index 0, so the length
of the force vector is `0 / dist * force = 0`): only centering gravity
remains. -/
lemma accumForces_singleton (sqrtF : α → α) (nd : GraphNode α)
    (edges : List GraphEdge) :
    accumForces sqrtF [nd] edges =
      gravityLoop [nd] (List.range 1)
        (List.replicate 1 0, List.replicate 1 0) := by
  have hr1 : List.range 1 = [0] := rfl
  have hrep : repelOuter sqrtF [nd] 1 (List.range 1)
      (List.replicate 1 (0 : α), List.replicate 1 0) =
      (List.replicate 1 0, List.replicate 1 0) := by
    rw [hr1]
    simp [repelOuter, repelInner]
  have hspr : ∀ (es : List GraphEdge) (a b : α),
      springLoop sqrtF [nd] es ([a], [b]) = ([a], [b]) := by
    intro es
    induction es with
    | nil => intro a b; rfl
    | cons e es ih =>
      intro a b
      by_cases hf : (nd.id == e.from_id) = true
      · by_cases ht : (nd.id == e.to_id) = true
        · have e1 : positionIdx (fun n => n.id == e.from_id) [nd] = some 0 := by
            simp [positionIdx, hf]
          have e2 : positionIdx (fun n => n.id == e.to_id) [nd] = some 0 := by
            simp [positionIdx, ht]
          simp only [springLoop, e1, e2, nodeX, nodeY, sub_self, zero_div,
            zero_mul, neg_zero, fAdd, fGet, List.get?_cons_zero,
            Option.map_some', Option.getD_some, add_zero, List.set_cons_zero]
          exact ih a b
        · have e1 : positionIdx (fun n => n.id == e.from_id) [nd] = some 0 := by
            simp [positionIdx, hf]
          have e2 : positionIdx (fun n => n.id == e.to_id) [nd] = none := by
            simp [positionIdx, ht]
          simp only [springLoop, e1, e2]
          exact ih a b
      · have e1 : positionIdx (fun n => n.id == e.from_id) [nd] = none := by
          simp [positionIdx, hf]
        simp only [springLoop, e1]
        exact ih a b
  unfold accumForces
  simp only [List.length_singleton]
  rw [hrep]
  have hspr' : springLoop sqrtF [nd] edges
      (List.replicate 1 (0 : α), List.replicate 1 0) =
      (List.replicate 1 0, List.replicate 1 0) := hspr edges 0 0
  rw [hspr']

/-- **C8.**  On a state with zero or one live node, one `physics_step`
is a total function (the embedding has no panic: pair indices are in
bounds, and every divisor is floored at 1 or guarded positive) and
coincides exactly with the centering-only reference step: with fewer
than two nodes there is no repulsion pair, and every spring term
contributes zero force. -/
theorem C8_single_node_centering_only (sqrtF : α → α) (s : GraphState α)
    (h : s.nodes.length ≤ 1) :
    s.physics_step sqrtF = centering_only_step sqrtF s := by
  unfold GraphState.physics_step centering_only_step
  cases hp : s.physics_enabled with
  | false => simp
  | true =>
    simp only [Bool.not_true, Bool.false_eq_true, if_false]
    rcases hnn : s.nodes with _ | ⟨nd, rest⟩
    · simp
    · cases rest with
      | cons nd2 r2 =>
        exfalso
        rw [hnn] at h
        simp at h
      | nil =>
        simp only [List.length_singleton, if_neg (by omega : ¬ (1 = 0))]
        rw [accumForces_singleton sqrtF nd s.edges]

/-- Witness for C8: the single-root sample state. -/
theorem C8_witness :
    sample0.nodes.length ≤ 1 ∧
      sample0.physics_step (fun x => x) =
        centering_only_step (fun x => x) sample0 :=
  ⟨by decide, C8_single_node_centering_only (fun x => x) sample0 (by decide)⟩

end Claim8

section Claim9

lemma find?_updateFirst_drag (nid : Nat) (X Y : α) :
    ∀ l : List (GraphNode α),
      (updateFirst nid
          (fun n => { n with x := X, y := Y, vx := 0, vy := 0 }) l).find?
        (fun n => n.id == nid) =
        (l.find? (fun n => n.id == nid)).map
          (fun n => { n with x := X, y := Y, vx := 0, vy := 0 })
  | [] => rfl
  | n :: rest => by
    by_cases h : n.id = nid
    · have hp : (n.id == nid) = true := by rw [h]; exact beq_self_eq_true _
      simp only [updateFirst, if_pos h, List.find?_cons, hp, Option.map_some']
    · have hp : (n.id == nid) = false := by
        rw [beq_eq_false_iff_ne]; exact h
      simp only [updateFirst, if_neg h, List.find?_cons, hp]
      exact find?_updateFirst_drag nid X Y rest

/-- Folding pointer-moves over a state in node-dragging mode: the
dragged node's position tracks the last pointer position minus the
recorded grab offset, with zero velocity; camera and drag bookkeeping
are untouched. -/
lemma dragFold_find (x y w h ox oy z0 cx0 cy0 : α) (nid : Nat)
    (nd : GraphNode α) :
    ∀ (pre : List (α × α)) (d : α × α) (t : GraphState α),
      t.dragged_node = some nid →
      t.zoom = z0 → t.cam_x = cx0 → t.cam_y = cy0 →
      t.drag_offset_x = ox → t.drag_offset_y = oy →
      (∃ a b c e, t.nodes.find? (fun n => n.id == nid) =
        some { nd with x := a, y := b, vx := c, vy := e }) →
      ((pre ++ [d]).foldl
          (fun t p => dragUpdate t x y p.1 p.2 w h) t).nodes.find?
        (fun n => n.id == nid) =
        some { nd with
          x := (x + d.1 - w / 2) / z0 + cx0 - ox
          y := (y + d.2 - h / 2) / z0 + cy0 - oy
          vx := 0, vy := 0 } := by
  intro pre
  induction pre with
  | nil =>
    intro d t hdrag hz hcx hcy hox hoy ⟨a, b, c, e, hfind⟩
    simp only [List.nil_append, List.foldl_cons, List.foldl_nil]
    unfold dragUpdate
    rw [hdrag]
    simp only [GraphState.screen_to_world]
    rw [find?_updateFirst_drag nid _ _ t.nodes, hfind,
      Option.map_some', hz, hcx, hcy, hox, hoy]
  | cons p pre ih =>
    intro d t hdrag hz hcx hcy hox hoy ⟨a, b, c, e, hfind⟩
    simp only [List.cons_append, List.foldl_cons]
    have hstep : dragUpdate t x y p.1 p.2 w h =
        { t with nodes := updateFirst nid (fun n =>
            { n with
              x := (t.screen_to_world (x + p.1) (y + p.2) w h).1 - t.drag_offset_x
              y := (t.screen_to_world (x + p.1) (y + p.2) w h).2 - t.drag_offset_y
              vx := 0, vy := 0 }) t.nodes } := by
      unfold dragUpdate
      rw [hdrag]
    rw [hstep]
    refine ih d _ hdrag hz hcx hcy hox hoy ?_
    refine ⟨(t.screen_to_world (x + p.1) (y + p.2) w h).1 - t.drag_offset_x,
      (t.screen_to_world (x + p.1) (y + p.2) w h).2 - t.drag_offset_y, 0, 0, ?_⟩
    rw [find?_updateFirst_drag nid _ _ t.nodes, hfind, Option.map_some']

/-- **C9.**  A pointer-down hitting node `nid` records the grab offset
(pointer world position minus node centre) and enters node-dragging;
each pointer-move rewrites the node's position to exactly the current
pointer world position minus that offset and zeroes its velocity; after
pointer-up the drag is cleared and the node rests at the final pointer
world coordinate minus the initially recorded offset, with zero
velocity. -/
theorem C9_drag_interaction (s : GraphState α) (x y w h : α) (nid : Nat)
    (nd : GraphNode α)
    (hhit : s.node_at (s.screen_to_world x y w h).1
      (s.screen_to_world x y w h).2 = some nid)
    (hfind : s.nodes.find? (fun n => n.id == nid) = some nd)
    (moves : List (α × α)) (dlast : α × α)
    (hlast : moves.getLast? = some dlast) :
    let s1 := dragBegin s x y w h
    let s2 := moves.foldl (fun t d => dragUpdate t x y d.1 d.2 w h) s1
    let s3 := dragEnd s2
    (s1.dragged_node = some nid ∧
      s1.drag_offset_x = (s.screen_to_world x y w h).1 - nd.x ∧
      s1.drag_offset_y = (s.screen_to_world x y w h).2 - nd.y) ∧
    (∀ (pre : List (α × α)) (d : α × α) (rest : List (α × α)),
      moves = pre ++ d :: rest →
      ((pre ++ [d]).foldl
          (fun t p => dragUpdate t x y p.1 p.2 w h) s1).nodes.find?
        (fun n => n.id == nid) =
        some { nd with
          x := (s.screen_to_world (x + d.1) (y + d.2) w h).1 -
            ((s.screen_to_world x y w h).1 - nd.x)
          y := (s.screen_to_world (x + d.1) (y + d.2) w h).2 -
            ((s.screen_to_world x y w h).2 - nd.y)
          vx := 0, vy := 0 }) ∧
    s3.dragged_node = none ∧ s3.is_panning = false ∧
    s3.nodes.find? (fun n => n.id == nid) =
      some { nd with
        x := (s.screen_to_world (x + dlast.1) (y + dlast.2) w h).1 -
          ((s.screen_to_world x y w h).1 - nd.x)
        y := (s.screen_to_world (x + dlast.1) (y + dlast.2) w h).2 -
          ((s.screen_to_world x y w h).2 - nd.y)
        vx := 0, vy := 0 } := by
  have hs1 : dragBegin s x y w h =
      { s with dragged_node := some nid
               drag_offset_x := (s.screen_to_world x y w h).1 - nd.x
               drag_offset_y := (s.screen_to_world x y w h).2 - nd.y } := by
    unfold dragBegin
    simp only [hhit, hfind]
  have hfold : ∀ (pre : List (α × α)) (d : α × α),
      ((pre ++ [d]).foldl
          (fun t p => dragUpdate t x y p.1 p.2 w h)
          (dragBegin s x y w h)).nodes.find? (fun n => n.id == nid) =
        some { nd with
          x := (s.screen_to_world (x + d.1) (y + d.2) w h).1 -
            ((s.screen_to_world x y w h).1 - nd.x)
          y := (s.screen_to_world (x + d.1) (y + d.2) w h).2 -
            ((s.screen_to_world x y w h).2 - nd.y)
          vx := 0, vy := 0 } := by
    intro pre d
    rw [hs1]
    exact dragFold_find x y w h
      ((s.screen_to_world x y w h).1 - nd.x)
      ((s.screen_to_world x y w h).2 - nd.y)
      s.zoom s.cam_x s.cam_y nid nd pre d _ rfl rfl rfl rfl rfl rfl
      ⟨nd.x, nd.y, nd.vx, nd.vy, hfind⟩
  refine ⟨⟨by rw [hs1], by rw [hs1], by rw [hs1]⟩,
    fun pre d rest _ => hfold pre d, rfl, rfl, ?_⟩
  show (moves.foldl (fun t d => dragUpdate t x y d.1 d.2 w h)
    (dragBegin s x y w h)).nodes.find? (fun n => n.id == nid) = _
  have hsplit : moves.dropLast ++ [dlast] = moves :=
    List.dropLast_append_getLast? dlast hlast
  rw [← hsplit]
  exact hfold moves.dropLast dlast

/-- Witness for C9: dragging the single sample node by `(3, 4)`. -/
theorem C9_witness :
    let s1 := dragBegin sampleHit 0 0 0 0
    let s2 := ([((3 : ℚ), (4 : ℚ))]).foldl
      (fun t d => dragUpdate t 0 0 d.1 d.2 0 0) s1
    let s3 := dragEnd s2
    (s1.dragged_node = some 0 ∧
      s1.drag_offset_x = (sampleHit.screen_to_world 0 0 0 0).1 - hitNodeQ.x ∧
      s1.drag_offset_y = (sampleHit.screen_to_world 0 0 0 0).2 - hitNodeQ.y) ∧
    (∀ (pre : List (ℚ × ℚ)) (d : ℚ × ℚ) (rest : List (ℚ × ℚ)),
      [((3 : ℚ), (4 : ℚ))] = pre ++ d :: rest →
      ((pre ++ [d]).foldl
          (fun t p => dragUpdate t 0 0 p.1 p.2 0 0) s1).nodes.find?
        (fun n => n.id == 0) =
        some { hitNodeQ with
          x := (sampleHit.screen_to_world (0 + d.1) (0 + d.2) 0 0).1 -
            ((sampleHit.screen_to_world 0 0 0 0).1 - hitNodeQ.x)
          y := (sampleHit.screen_to_world (0 + d.1) (0 + d.2) 0 0).2 -
            ((sampleHit.screen_to_world 0 0 0 0).2 - hitNodeQ.y)
          vx := 0, vy := 0 }) ∧
    s3.dragged_node = none ∧ s3.is_panning = false ∧
    s3.nodes.find? (fun n => n.id == 0) =
      some { hitNodeQ with
        x := (sampleHit.screen_to_world (0 + 3) (0 + 4) 0 0).1 -
          ((sampleHit.screen_to_world 0 0 0 0).1 - hitNodeQ.x)
        y := (sampleHit.screen_to_world (0 + 3) (0 + 4) 0 0).2 -
          ((sampleHit.screen_to_world 0 0 0 0).2 - hitNodeQ.y)
        vx := 0, vy := 0 } :=
  C9_drag_interaction sampleHit 0 0 0 0 0 hitNodeQ
    (by norm_num [GraphState.node_at, GraphState.screen_to_world, sampleHit,
      hitNodeQ, GraphState.new])
    rfl [((3 : ℚ), (4 : ℚ))] ((3 : ℚ), (4 : ℚ)) rfl

end Claim9

end Diptych
